import Mathlib

/-!
Chat relay over a Redis stream: embedding of `main.go`

The three handlers of `ChatServiceServer` (`Send`, `Receive`, `ReceiveStream`) are
embedded together with the counter `nowStreaming`.

* Go values that the handlers touch (`error`, `interface{}`, the go-redis reply types and
  the protobuf messages) are plain inductive types and structures.
* `Send` and `Receive` are sequential and are embedded as functions over a client; a
  handler whose client call does not return has the outcome `waits`.
* `ReceiveStream` blocks in `select`, in `XRead` and in `stream.Send`; it is embedded as
  a labelled transition function `Session.step` whose labels are the events at which the
  goroutine or its environment moves.
* `nowStreaming` is an `atomic.Int32`; it is an `Int` kept in the int32 range by `wrap32`.
* Calls to `log.Printf` write to the process log only and are not part of the state.
-/

set_option linter.dupNamespace false

namespace ChatExamination

/-! ## Go values -/

/-- Go `error` values: a plain error, or an error that wraps another one. -/
inductive GoError where
  | leaf (msg : String)
  | wrap (msg : String) (inner : GoError)
  deriving DecidableEq, Repr

/-- The go-redis value `redis.Nil`. -/
def redisNil : GoError := .leaf "redis: nil"

/-- Go `errors.Is(err, target)`: equality somewhere along the unwrap chain. -/
def errorsIs : GoError → GoError → Bool
  | .leaf m, t => decide (GoError.leaf m = t)
  | .wrap m i, t => decide (GoError.wrap m i = t) || errorsIs i t

/-- The dynamic values an `interface{}` field of a stream entry can hold. -/
inductive GoValue where
  | str (s : String)
  | int (n : Int)
  | bytes (b : List Nat)
  deriving DecidableEq, Repr

/-- Go `map[string]interface{}`, read only through key lookup. -/
abbrev Values := List (String × GoValue)

/-- The protobuf `pb.Message`. -/
structure Message where
  Name : String
  Message : String
  deriving DecidableEq, Repr

/-- The protobuf `pb.SendRequest`. -/
structure SendRequest where
  Name : String
  Message : String
  deriving DecidableEq, Repr

/-- The protobuf `pb.SendResponse`. -/
structure SendResponse where
  deriving DecidableEq, Repr

/-- The protobuf `pb.ReceiveResponse`. -/
structure ReceiveResponse where
  Messages : List Message
  deriving DecidableEq, Repr

/-- The go-redis `redis.XMessage`. -/
structure XMessage where
  ID : String
  Values : Values
  deriving DecidableEq, Repr

/-- The go-redis `redis.XStream`. -/
structure XStream where
  Stream : String
  Messages : List XMessage
  deriving DecidableEq, Repr

/-- The go-redis `redis.XAddArgs` (the fields the program sets). -/
structure XAddArgs where
  Stream : String
  Values : Values
  deriving DecidableEq, Repr

/-- The go-redis `redis.XReadArgs`. `Block` is a `time.Duration`, here in milliseconds:
`some ms` is a duration that is not negative, for which go-redis sends `BLOCK ms`, and
`none` a negative one, for which it sends no `BLOCK`. A literal that leaves the field out
has Go's zero value, `some 0`, and `BLOCK 0` waits without limit. -/
structure XReadArgs where
  Streams : List String
  Block : Option Nat
  deriving DecidableEq, Repr

/-- What `XRead(...).Result()` hands back: the streams, or an error. -/
inductive XReadResult where
  | error (e : GoError)
  | ok (streams : List XStream)
  deriving DecidableEq, Repr

/-- How a handler call ends: a value, an error, or a run-time panic; `waits` is a call
that has not returned because a client call it made has not returned. -/
inductive Outcome (α : Type) where
  | ret (v : α)
  | err (e : GoError)
  | panicked
  | waits
  deriving DecidableEq, Repr

/-- The constant `streamName`. -/
def streamName : String := "chat"

/-! ## The message codec -/

/-- The type assertion `v.(string)` on a map lookup; `none` is the panic. -/
def asString : Option GoValue → Option String
  | some (.str s) => some s
  | _ => none

/-- The body of the decoding loop: one entry to one `pb.Message`. -/
def decodeMessage (msg : XMessage) : Option Message :=
  match asString (msg.Values.lookup "name"), asString (msg.Values.lookup "msg") with
  | some n, some m => some ⟨n, m⟩
  | _, _ => none

/-- The decoding loop over `streams[0].Messages`; `none` when an assertion panics. -/
def decodeAll : List XMessage → Option (List Message)
  | [] => some []
  | msg :: rest =>
    match decodeMessage msg, decodeAll rest with
    | some m, some ms => some (m :: ms)
    | _, _ => none

/-- The `Values` map literal built by `Send`. -/
def sendValues (req : SendRequest) : Values :=
  [("msg", .str req.Message), ("name", .str req.Name)]

/-! ## `Send` and `Receive` -/

/-- The two client calls the handlers use, over a client state `σ`. `XRead` is `none`
when the call does not return in that state. -/
structure RedisClient (σ : Type) where
  XAdd : XAddArgs → σ → Except GoError String × σ
  XRead : XReadArgs → σ → Option XReadResult

/-- The handler `Send`. -/
def Send {σ : Type} (c : RedisClient σ) (req : SendRequest) (st : σ) :
    Outcome SendResponse × σ :=
  match c.XAdd ⟨streamName, sendValues req⟩ st with
  | (.error e, st') => (.err e, st')
  | (.ok _, st') => (.ret ⟨⟩, st')

/-- The handler `Receive`. Its `XReadArgs` literal sets `Streams` only, so `Block` has
the zero value. -/
def Receive {σ : Type} (c : RedisClient σ) (st : σ) : Outcome ReceiveResponse :=
  match c.XRead ⟨[streamName, "0"], some 0⟩ st with
  | none => .waits
  | some (.error e) => .err e
  | some (.ok []) => .panicked
  | some (.ok (s0 :: _)) =>
    match decodeAll s0.Messages with
    | none => .panicked
    | some ms => .ret ⟨ms⟩

/-! ## `nowStreaming` -/

/-- Reduction of an integer into the int32 range. -/
def wrap32 (x : Int) : Int := (x + 2147483648) % 4294967296 - 2147483648

/-- The method `atomic.Int32.Add`. -/
def add32 (n d : Int) : Int := wrap32 (n + d)

/-! ## `ReceiveStream` -/

/-- Which `return` ended a call of `ReceiveStream`. -/
inductive Exit where
  | uuidError
  | cancelled
  | readError
  | sendError
  deriving DecidableEq, Repr

/-- Where the goroutine of one call of `ReceiveStream` stands. -/
inductive Loc where
  | starting
  | atSelect
  | inXRead (args : XReadArgs)
  | inSend (resp : ReceiveResponse)
  | returned (via : Exit) (err : Option GoError)
  | panicked
  deriving DecidableEq, Repr

/-- The three states of a subscription. -/
inductive Phase where
  | Starting
  | Polling
  | Terminated
  deriving DecidableEq, Repr

/-- The phase a location belongs to: `Polling` is between `Add(1)` and `Add(-1)`. -/
def Loc.phase : Loc → Phase
  | .starting => .Starting
  | .atSelect => .Polling
  | .inXRead _ => .Polling
  | .inSend _ => .Polling
  | .returned _ _ => .Terminated
  | .panicked => .Terminated

/-- One call of `stream.Send`: the entries it was decoded from and the response. -/
structure PushRecord where
  src : List XMessage
  resp : ReceiveResponse
  deriving DecidableEq, Repr

/-- One call of `ReceiveStream`: its location, its locals, the two channels of its
`select`, and the history of its calls to the store, to the stream and to the counter. -/
structure Session where
  loc : Loc
  latestMsgID : String
  cancelled : Bool
  tickPending : Bool
  polls : List XReadArgs
  pushes : List PushRecord
  incs : Nat
  decs : Nat
  deriving DecidableEq, Repr

/-- A call that has just been entered. -/
def Session.init : Session :=
  { loc := .starting, latestMsgID := "", cancelled := false, tickPending := false,
    polls := [], pushes := [], incs := 0, decs := 0 }

/-- The events of one call. `cancel` and `tickFire` belong to the environment
(`stream.Context().Done()` is closed, the ticker puts a value in `t.C`); the others are
moves of the goroutine: the prologue up to the loop (with the `err` of `uuid.NewRandom`),
the two cases of `select`, the return of `XRead`, the return of `stream.Send`. -/
inductive Ev where
  | cancel
  | tickFire
  | start (uuidErr : Option GoError)
  | selectDone
  | selectTick
  | reply (r : XReadResult)
  | pushed (r : Option GoError)
  deriving DecidableEq, Repr

/-- Index `len-1` of a non-empty `Messages` slice. -/
def lastID (msgs : List XMessage) : String :=
  match msgs.getLast? with
  | some m => m.ID
  | none => ""

/-- The deferred `Add(-1)` together with the end of the call. -/
def Session.leave (n : Int) (s : Session) (l : Loc) : Int × Session :=
  (add32 n (-1), { s with loc := l, decs := s.decs + 1 })

/-- The tick case from the return of `XRead` up to the call of `stream.Send`. -/
def Session.handleReply (n : Int) (s : Session) : XReadResult → Int × Session
  | .error e =>
    if errorsIs e redisNil then (n, { s with loc := .atSelect })
    else s.leave n (.returned .readError (some e))
  | .ok [] => s.leave n .panicked
  | .ok (s0 :: _) =>
    if s0.Messages.length = 0 then (n, { s with loc := .atSelect })
    else
      match decodeAll s0.Messages with
      | none => s.leave n .panicked
      | some ms =>
        (n, { s with
                latestMsgID := lastID s0.Messages
                loc := .inSend ⟨ms⟩
                pushes := s.pushes ++ [⟨s0.Messages, ⟨ms⟩⟩] })

/-- The transition function of one call over the counter `n`; `none` when the event is
not enabled. -/
def Session.step (n : Int) (s : Session) : Ev → Option (Int × Session)
  | .cancel => some (n, { s with cancelled := true })
  | .tickFire =>
    if s.loc.phase = .Polling then some (n, { s with tickPending := true }) else none
  | .start uuidErr =>
    match s.loc with
    | .starting =>
      match uuidErr with
      | some e => some (n, { s with loc := .returned .uuidError (some e) })
      | none =>
        some (add32 n 1, { s with loc := .atSelect, latestMsgID := "0", incs := s.incs + 1 })
    | _ => none
  | .selectDone =>
    match s.loc with
    | .atSelect =>
      if s.cancelled then some (s.leave n (.returned .cancelled none)) else none
    | _ => none
  | .selectTick =>
    match s.loc with
    | .atSelect =>
      if s.tickPending then
        some (n, { s with
                     loc := .inXRead ⟨[streamName, s.latestMsgID], some 1⟩
                     tickPending := false
                     polls := s.polls ++ [⟨[streamName, s.latestMsgID], some 1⟩] })
      else none
    | _ => none
  | .reply r =>
    match s.loc with
    | .inXRead _ => some (s.handleReply n r)
    | _ => none
  | .pushed r =>
    match s.loc with
    | .inSend _ =>
      match r with
      | none => some (n, { s with loc := .atSelect })
      | some e => some (s.leave n (.returned .sendError (some e)))
    | _ => none

/-- A run of one call: the events in order, `none` if one of them is not enabled. -/
def Session.run (n : Int) (s : Session) : List Ev → Option (Int × Session)
  | [] => some (n, s)
  | e :: es =>
    match s.step n e with
    | none => none
    | some (n', s') => Session.run n' s' es

/-- A call of `ReceiveStream` from its entry, with the counter at `n`, under a schedule of
events: the counter and the state of the call after the schedule. -/
def ReceiveStream (n : Int) (evs : List Ev) : Option (Int × Session) :=
  Session.run n Session.init evs

/-! ## The log store

Redis is outside the program. The claims are stated against a log store that keeps one
stream in append order, hands out strictly increasing ids and answers a read with the
entries whose id lies after the cursor. `MemStore` is such a store. The order of ids is
given by `key`; the id a successful append receives is chosen by the store and appears
as a `StoreChoice`. -/

/-- An in-memory store holding the stream `streamName`. `nilOnEmpty` says how a read
that finds nothing is answered once its wait is over: with `redis.Nil` (as Redis does) or
with a stream that has zero entries. -/
structure MemStore where
  key : String → Nat
  nilOnEmpty : Bool
  entries : List XMessage

/-- What the store does with one append: fail, or append under the id it picks. -/
inductive StoreChoice where
  | fail (e : GoError)
  | assign (id : String)
  deriving DecidableEq, Repr

/-- The entries with an id after `cursor`, in log order. -/
def MemStore.readAfter (st : MemStore) (cursor : String) : List XMessage :=
  st.entries.filter (fun e => decide (st.key cursor < st.key e.ID))

/-- The answer of a read that finds nothing, once its wait is over. -/
def MemStore.noData (st : MemStore) (k : String) : XReadResult :=
  if st.nilOnEmpty then .error redisNil else .ok [⟨k, []⟩]

/-- The store side of `XRead` for one stream and one cursor: the entries after the
cursor if there are any; otherwise, under `BLOCK 0`, no answer as long as the log stays
as it is, and under any other `Block` the no-data answer. -/
def MemStore.XRead (args : XReadArgs) (st : MemStore) : Option XReadResult :=
  match args.Streams with
  | [k, id] =>
    match (if k = streamName then st.readAfter id else []) with
    | [] => if args.Block = some 0 then none else some (st.noData k)
    | e :: es => some (.ok [⟨k, e :: es⟩])
  | _ => some (.error (.leaf "ERR Unbalanced XREAD list of streams"))

/-- The store side of `XAdd`: the new id must lie after the beginning-of-log cursor `"0"`
and after every id already in the stream. -/
def MemStore.XAdd (c : StoreChoice) (args : XAddArgs) (st : MemStore) :
    Except GoError String × MemStore :=
  match c with
  | .fail e => (.error e, st)
  | .assign id =>
    if args.Stream = streamName ∧ st.key "0" < st.key id ∧
        st.entries.all (fun e => decide (st.key e.ID < st.key id)) then
      (.ok id, { st with entries := st.entries ++ [⟨id, args.Values⟩] })
    else (.error (.leaf "ERR The ID specified in XADD is equal or smaller than the target stream top item"), st)

/-- The client over the in-memory store, for one choice of the store. -/
def memClient (c : StoreChoice) : RedisClient MemStore :=
  ⟨MemStore.XAdd c, MemStore.XRead⟩

/-- Value of a run of decimal digits. -/
def digitsVal (cs : List Char) : Nat :=
  cs.foldl (fun a c => 10 * a + (c.toNat - 48)) 0

/-- The order of Redis stream ids `ms-seq` (two 64-bit numbers, compared as a pair); the
incomplete id `"0"` stands for `0-0`. -/
def redisIDKey (id : String) : Nat :=
  digitsVal (id.data.takeWhile (fun c => c != '-')) * 18446744073709551616 +
    digitsVal ((id.data.dropWhile (fun c => c != '-')).drop 1)

/-- An empty store with the Redis id order; a read that finds nothing is answered with
`redis.Nil` once its wait is over. -/
def MemStore.empty : MemStore := ⟨redisIDKey, true, []⟩

/-- Consecutive calls of `Send`, each of which must succeed. -/
def sendAll (st : MemStore) : List (StoreChoice × SendRequest) → Option MemStore
  | [] => some st
  | (c, req) :: rest =>
    match Send (memClient c) req st with
    | (.ret _, st') => sendAll st' rest
    | (_, _) => none

/-! ## One call of `ReceiveStream` against the store -/

/-- The store, the counter and one call of `ReceiveStream`. -/
structure Sys where
  store : MemStore
  nowStreaming : Int
  sess : Session

/-- Events of `Sys`: a call of `Send`, an append by any other client, the store answering
the pending `XRead` from its log (enabled when the store has an answer), and the events
of the call other than `reply`. -/
inductive SysEv where
  | send (c : StoreChoice) (req : SendRequest)
  | xadd (c : StoreChoice) (args : XAddArgs)
  | storeReply
  | sess (e : Ev)

/-- Whether an event is the return of `XRead`. -/
def Ev.isReply : Ev → Bool
  | .reply _ => true
  | _ => false

/-- The transition function of `Sys`. -/
def Sys.step (y : Sys) : SysEv → Option Sys
  | .send c req => some { y with store := (Send (memClient c) req y.store).2 }
  | .xadd c args => some { y with store := (y.store.XAdd c args).2 }
  | .storeReply =>
    match y.sess.loc with
    | .inXRead args =>
      match y.store.XRead args with
      | none => none
      | some r =>
        match y.sess.step y.nowStreaming (.reply r) with
        | some (n, s) => some { y with nowStreaming := n, sess := s }
        | none => none
    | _ => none
  | .sess e =>
    if e.isReply then none
    else
      match y.sess.step y.nowStreaming e with
      | some (n, s) => some { y with nowStreaming := n, sess := s }
      | none => none

/-- A run of `Sys`. -/
def Sys.run (y : Sys) : List SysEv → Option Sys
  | [] => some y
  | e :: es =>
    match y.step e with
    | none => none
    | some y' => Sys.run y' es

/-- A call of `ReceiveStream` entered against the store `st`. -/
def Sys.init (st : MemStore) : Sys := ⟨st, 0, Session.init⟩

/-- Everything a call has handed to `stream.Send` so far, as entries. -/
def Session.delivered (s : Session) : List XMessage :=
  (s.pushes.map (fun p => p.src)).flatten

/-- Ids strictly increase along the log. -/
def MemStore.Sorted (st : MemStore) : Prop :=
  st.entries.Pairwise (fun a b => st.key a.ID < st.key b.ID)

/-- What holds in every state of a call that was entered against the store `st0`: the
log only grows and stays ordered, the entries handed to `stream.Send` so far are an
initial part of the read from `"0"`, while the call is in `Polling` the rest of that read
is the read from the cursor, and the first push holds every entry of `st0` after `"0"`. -/
structure Sys.Inv (st0 : MemStore) (y : Sys) : Prop where
  key_eq : y.store.key = st0.key
  sorted : y.store.Sorted
  grows : ∀ e ∈ st0.entries, e ∈ y.store.entries
  part : ∃ rest, y.sess.delivered ++ rest = y.store.readAfter "0"
  upto : y.sess.loc.phase = .Polling →
    y.sess.delivered ++ y.store.readAfter y.sess.latestMsgID = y.store.readAfter "0"
  cursor : y.sess.loc.phase = .Polling →
    y.sess.latestMsgID = "0" ∨ ∃ e ∈ y.store.entries, e.ID = y.sess.latestMsgID
  starting : y.sess.loc = .starting → y.sess.pushes = []
  args : ∀ a, y.sess.loc = .inXRead a → a = ⟨[streamName, y.sess.latestMsgID], some 1⟩
  fromZero : y.sess.pushes = [] → y.sess.loc.phase = .Polling → y.sess.latestMsgID = "0"
  decoded : ∀ p ∈ y.sess.pushes, decodeAll p.src = some p.resp.Messages
  firstPush : ∀ p, y.sess.pushes.head? = some p →
    ∀ e ∈ st0.entries, st0.key "0" < st0.key e.ID → e ∈ p.src

/-! ## Any number of calls of `ReceiveStream` over the one counter -/

/-- The counter and all calls of `ReceiveStream` entered so far. -/
structure World where
  nowStreaming : Int
  sessions : List Session
  deriving DecidableEq, Repr

/-- Events of `World`: a new call is entered, or call number `i` makes a move. -/
inductive WorldEv where
  | call
  | sess (i : Nat) (e : Ev)
  deriving DecidableEq, Repr

/-- Event `e` applied to the call at position `i`. -/
def stepAt (n : Int) : List Session → Nat → Ev → Option (Int × List Session)
  | [], _, _ => none
  | s :: rest, 0, e =>
    match s.step n e with
    | some (n', s') => some (n', s' :: rest)
    | none => none
  | s :: rest, i + 1, e =>
    match stepAt n rest i e with
    | some (n', rest') => some (n', s :: rest')
    | none => none

/-- The transition function of `World`. -/
def World.step (w : World) : WorldEv → Option World
  | .call => some { w with sessions := w.sessions ++ [Session.init] }
  | .sess i e =>
    match stepAt w.nowStreaming w.sessions i e with
    | some (n, ss) => some ⟨n, ss⟩
    | none => none

/-- A run of `World`. -/
def World.run (w : World) : List WorldEv → Option World
  | [] => some w
  | e :: es =>
    match w.step e with
    | none => none
    | some w' => World.run w' es

/-- The process before any call: the zero value of `atomic.Int32`. -/
def World.init : World := ⟨0, []⟩

/-- Number of calls currently in `Polling`. -/
def World.polling (w : World) : Nat :=
  w.sessions.countP (fun s => decide (s.loc.phase = .Polling))

/-- How often a call standing at a location has executed `Add(1)`. -/
def Loc.incsDone : Loc → Nat
  | .starting => 0
  | .returned .uuidError _ => 0
  | _ => 1

/-- How often a call standing at a location has executed the deferred `Add(-1)`. -/
def Loc.decsDone : Loc → Nat
  | .returned .uuidError _ => 0
  | .returned _ _ => 1
  | .panicked => 1
  | _ => 0

/-- One if the call is in `Polling`, zero otherwise. -/
def Session.pol (s : Session) : Nat :=
  if s.loc.phase = .Polling then 1 else 0

/-- The counter agrees with the calls: it is the int32 image of the number of calls in
`Polling`, and every call has executed as many `Add` as its location says. -/
def World.Inv (w : World) : Prop :=
  w.nowStreaming = wrap32 w.polling ∧
    ∀ s ∈ w.sessions, s.incs = s.loc.incsDone ∧ s.decs = s.loc.decsDone

/-- A call that sits at `select` right after its prologue. -/
def Session.fresh : Session :=
  { Session.init with loc := .atSelect, latestMsgID := "0", incs := 1 }

/-- The run in which `k` calls are entered one after the other and each runs its prologue. -/
def fillScript : Nat → List WorldEv
  | 0 => []
  | k + 1 => fillScript k ++ [.call, .sess k (.start none)]

/-- Whether an event belongs to the environment of the call rather than to its goroutine. -/
def Ev.isEnv : Ev → Bool
  | .cancel => true
  | .tickFire => true
  | _ => false

/-! ## Concrete data for the scenarios -/

/-- The entry written by `Send(alice, hi)` under the id `1-0`. -/
def entryAlice : XMessage := ⟨"1-0", sendValues ⟨"alice", "hi"⟩⟩

/-- The entry written by `Send(bob, yo)` under the id `2-0`. -/
def entryBob : XMessage := ⟨"2-0", sendValues ⟨"bob", "yo"⟩⟩

/-- The entry written by `Send(carol, sup)` under the id `3-0`. -/
def entryCarol : XMessage := ⟨"3-0", sendValues ⟨"carol", "sup"⟩⟩

/-- The state `lateScript` ends in. -/
def lateEnd : Sys :=
  { store := ⟨redisIDKey, true, [entryAlice, entryBob, entryCarol]⟩
    nowStreaming := 1
    sess :=
      { Session.fresh with
          latestMsgID := "3-0"
          polls := [⟨[streamName, "0"], some 1⟩]
          pushes := [⟨[entryAlice, entryBob, entryCarol],
            ⟨[⟨"alice", "hi"⟩, ⟨"bob", "yo"⟩, ⟨"carol", "sup"⟩]⟩⟩] } }

/-- A subscription that sees alice in a first tick and bob and carol in a second one. -/
def twoTickScript : List SysEv :=
  [.sess (.start none), .send (.assign "1-0") ⟨"alice", "hi"⟩,
   .sess .tickFire, .sess .selectTick, .storeReply, .sess (.pushed none),
   .send (.assign "2-0") ⟨"bob", "yo"⟩, .send (.assign "3-0") ⟨"carol", "sup"⟩,
   .sess .tickFire, .sess .selectTick, .storeReply, .sess (.pushed none)]

/-- The state `twoTickScript` ends in. -/
def twoTickEnd : Sys :=
  { store := ⟨redisIDKey, true, [entryAlice, entryBob, entryCarol]⟩
    nowStreaming := 1
    sess :=
      { Session.fresh with
          latestMsgID := "3-0"
          polls := [⟨[streamName, "0"], some 1⟩, ⟨[streamName, "1-0"], some 1⟩]
          pushes := [⟨[entryAlice], ⟨[⟨"alice", "hi"⟩]⟩⟩,
            ⟨[entryBob, entryCarol], ⟨[⟨"bob", "yo"⟩, ⟨"carol", "sup"⟩]⟩⟩] } }

/-- The store after `Send(alice, hi)` and `Send(bob, yo)`. -/
def storeAliceBob : MemStore := ⟨redisIDKey, true, [entryAlice, entryBob]⟩

/-- A subscription entered after alice and bob, then `Send(carol, sup)`, then one tick. -/
def lateScript : List SysEv :=
  [.sess (.start none), .send (.assign "3-0") ⟨"carol", "sup"⟩,
   .sess .tickFire, .sess .selectTick, .storeReply, .sess (.pushed none)]

/-- The scenario of the two publishers followed by a subscription and a third publisher. -/
def carolScript : List SysEv :=
  [.send (.assign "1-0") ⟨"alice", "hi"⟩, .send (.assign "2-0") ⟨"bob", "yo"⟩,
   .sess (.start none), .send (.assign "3-0") ⟨"carol", "sup"⟩,
   .sess .tickFire, .sess .selectTick, .storeReply, .sess (.pushed none)]

/-! ## The tick case of `ReceiveStream` -/

theorem lastID_of_getLast? {msgs : List XMessage} {m : XMessage}
    (h : msgs.getLast? = some m) : lastID msgs = m.ID := by
  simp [lastID, h]

theorem decodeMessage_of_fields {e : XMessage} {nm m : String}
    (hn : e.Values.lookup "name" = some (.str nm))
    (hm : e.Values.lookup "msg" = some (.str m)) :
    decodeMessage e = some ⟨nm, m⟩ := by
  simp [decodeMessage, hn, hm, asString]

theorem decodeMessage_fields {e : XMessage} {x : Message} (h : decodeMessage e = some x) :
    e.Values.lookup "name" = some (.str x.Name) ∧
      e.Values.lookup "msg" = some (.str x.Message) := by
  unfold decodeMessage at h
  cases hn : List.lookup "name" e.Values with
  | none => simp [hn, asString] at h
  | some vn =>
    cases hm : List.lookup "msg" e.Values with
    | none => cases vn <;> simp [hn, hm, asString] at h
    | some vm =>
      cases vn <;> cases vm <;> simp [hn, hm, asString] at h
      subst h
      exact ⟨rfl, rfl⟩

theorem decodeAll_forall₂ :
    ∀ {es : List XMessage} {ms : List Message}, decodeAll es = some ms →
      List.Forall₂ (fun e m => e.Values.lookup "name" = some (.str m.Name) ∧
        e.Values.lookup "msg" = some (.str m.Message)) es ms
  | [], ms, h => by
    simp [decodeAll] at h
    subst h
    exact List.Forall₂.nil
  | e :: es, ms, h => by
    unfold decodeAll at h
    cases hd : decodeMessage e with
    | none => simp [hd] at h
    | some x =>
      cases hr : decodeAll es with
      | none => simp [hd, hr] at h
      | some xs =>
        simp [hd, hr] at h
        subst h
        exact List.Forall₂.cons (decodeMessage_fields hd) (decodeAll_forall₂ hr)

theorem decodeAll_total :
    ∀ {es : List XMessage},
      (∀ e ∈ es, ∃ nm m, e.Values.lookup "name" = some (.str nm) ∧
        e.Values.lookup "msg" = some (.str m)) →
      ∃ ms, decodeAll es = some ms
  | [], _ => ⟨[], rfl⟩
  | e :: es, h => by
    obtain ⟨nm, m, hn, hm⟩ := h e (List.mem_cons_self _ _)
    obtain ⟨ms, hms⟩ := @decodeAll_total es
      (fun x hx => h x (List.mem_cons_of_mem _ hx))
    exact ⟨⟨nm, m⟩ :: ms, by simp [decodeAll, decodeMessage_of_fields hn hm, hms]⟩

theorem handleReply_entries (n : Int) (s : Session) (s0 : XStream) (rest : List XStream)
    (ms : List Message) (hne : s0.Messages ≠ []) (hdec : decodeAll s0.Messages = some ms) :
    s.handleReply n (.ok (s0 :: rest)) =
      (n, { s with
              latestMsgID := lastID s0.Messages
              loc := .inSend ⟨ms⟩
              pushes := s.pushes ++ [⟨s0.Messages, ⟨ms⟩⟩] }) := by
  have hlen : s0.Messages.length ≠ 0 := by
    intro h
    exact hne (List.length_eq_zero.mp h)
  simp [Session.handleReply, hlen, hdec]

/-- C10: in a tick whose `XRead` returns a non-empty list of entries that all carry
string-valued fields `name` and `msg`, decoding does not panic, exactly one call of
`stream.Send` is made (the push history grows by one record during the tick and by none
when the push completes), and the pushed batch lists, entry by entry and in the same
order, the `name` and `msg` of the entries returned. -/
theorem tick_pushes_decoded_batch (n : Int) (s : Session) (args : XReadArgs)
    (s0 : XStream) (rest : List XStream)
    (hloc : s.loc = .inXRead args) (hne : s0.Messages ≠ [])
    (hf : ∀ e ∈ s0.Messages, ∃ nm m, e.Values.lookup "name" = some (.str nm) ∧
      e.Values.lookup "msg" = some (.str m)) :
    ∃ batch s1, s.step n (.reply (.ok (s0 :: rest))) = some (n, s1) ∧
      s1.loc = .inSend ⟨batch⟩ ∧
      s1.pushes = s.pushes ++ [⟨s0.Messages, ⟨batch⟩⟩] ∧
      batch.length = s0.Messages.length ∧
      List.Forall₂ (fun e m => e.Values.lookup "name" = some (.str m.Name) ∧
        e.Values.lookup "msg" = some (.str m.Message)) s0.Messages batch ∧
      ∀ r, ∃ n2 s2, s1.step n (.pushed r) = some (n2, s2) ∧ s2.pushes = s1.pushes := by
  obtain ⟨ms, hms⟩ := decodeAll_total hf
  refine ⟨ms, { s with
                  latestMsgID := lastID s0.Messages
                  loc := .inSend ⟨ms⟩
                  pushes := s.pushes ++ [⟨s0.Messages, ⟨ms⟩⟩] },
    ?_, rfl, rfl, ?_, decodeAll_forall₂ hms, ?_⟩
  · simp only [Session.step, hloc]
    rw [handleReply_entries n s s0 rest ms hne hms]
  · exact (List.Forall₂.length_eq (decodeAll_forall₂ hms)).symm
  · intro r
    cases r with
    | none => exact ⟨_, _, rfl, rfl⟩
    | some e => exact ⟨_, _, rfl, rfl⟩

/-- Witness of C10 on the poll that returns the entries of alice and bob. -/
theorem tick_pushes_decoded_batch_witness :
    ∃ batch s1,
      ({ Session.fresh with loc := .inXRead ⟨[streamName, "0"], some 1⟩ } : Session).step 1
          (.reply (.ok [⟨"chat", [entryAlice, entryBob]⟩])) = some (1, s1) ∧
      s1.loc = .inSend ⟨batch⟩ ∧
      s1.pushes = [] ++ [⟨[entryAlice, entryBob], ⟨batch⟩⟩] ∧
      batch.length = [entryAlice, entryBob].length ∧
      List.Forall₂ (fun e m => e.Values.lookup "name" = some (.str m.Name) ∧
        e.Values.lookup "msg" = some (.str m.Message)) [entryAlice, entryBob] batch ∧
      ∀ r, ∃ n2 s2, s1.step 1 (.pushed r) = some (n2, s2) ∧ s2.pushes = s1.pushes :=
  tick_pushes_decoded_batch 1
    { Session.fresh with loc := .inXRead ⟨[streamName, "0"], some 1⟩ }
    ⟨[streamName, "0"], some 1⟩ ⟨"chat", [entryAlice, entryBob]⟩ [] rfl (by decide)
    (by
      intro e he
      simp only [List.mem_cons, List.mem_singleton, List.not_mem_nil, or_false] at he
      rcases he with rfl | rfl
      · exact ⟨"alice", "hi", by decide, by decide⟩
      · exact ⟨"bob", "yo", by decide, by decide⟩)

/-- C2, as stated, fails: after a tick whose push fails the cursor `latestMsgID` holds
the id of the last entry of the batch (`1-0`), not the value it had before the tick
(`0`). -/
theorem cursor_moved_before_failed_push :
    (ReceiveStream 0 [.start none, .tickFire]).map
        (fun p => (p.2.loc, p.2.latestMsgID)) = some (.atSelect, "0") ∧
    (ReceiveStream 0
        [.start none, .tickFire, .selectTick, .reply (.ok [⟨"chat", [entryAlice]⟩]),
         .pushed (some (.leaf "transport is closing"))]).map
        (fun p => (p.2.loc, p.2.latestMsgID)) =
      some (.returned .sendError (some (.leaf "transport is closing")), "1-0") := by
  decide

/-- C2, amended: in a tick whose `XRead` returns a non-empty list of entries that
decodes, the cursor `latestMsgID` is set to the id of the last entry when the push is
issued, and it holds that id after the push whatever the push returns; a successful push
leads back to `select`, a failed one ends the call with that error. -/
theorem cursor_is_last_id_from_push_on (n : Int) (s : Session) (args : XReadArgs)
    (s0 : XStream) (rest : List XStream) (ms : List Message) (last : XMessage)
    (hloc : s.loc = .inXRead args) (hlast : s0.Messages.getLast? = some last)
    (hdec : decodeAll s0.Messages = some ms) :
    ∃ s1, s.step n (.reply (.ok (s0 :: rest))) = some (n, s1) ∧
      s1.loc = .inSend ⟨ms⟩ ∧ s1.latestMsgID = last.ID ∧
      (∃ s2, s1.step n (.pushed none) = some (n, s2) ∧
        s2.loc = .atSelect ∧ s2.latestMsgID = last.ID) ∧
      (∀ e, ∃ s2, s1.step n (.pushed (some e)) = some (add32 n (-1), s2) ∧
        s2.loc = .returned .sendError (some e) ∧ s2.latestMsgID = last.ID) := by
  have hne : s0.Messages ≠ [] := by
    intro h
    simp [h] at hlast
  refine ⟨{ s with
              latestMsgID := lastID s0.Messages
              loc := .inSend ⟨ms⟩
              pushes := s.pushes ++ [⟨s0.Messages, ⟨ms⟩⟩] },
    ?_, rfl, lastID_of_getLast? hlast, ⟨_, rfl, rfl, lastID_of_getLast? hlast⟩, ?_⟩
  · simp only [Session.step, hloc]
    rw [handleReply_entries n s s0 rest ms hne hdec]
  · intro e
    exact ⟨_, rfl, rfl, lastID_of_getLast? hlast⟩

/-- Witness of the amended C2 on the poll that returns the entries of alice and bob. -/
theorem cursor_is_last_id_from_push_on_witness :
    ∃ s1,
      ({ Session.fresh with loc := .inXRead ⟨[streamName, "0"], some 1⟩ } : Session).step 1
          (.reply (.ok [⟨"chat", [entryAlice, entryBob]⟩])) = some (1, s1) ∧
      s1.loc = .inSend ⟨[⟨"alice", "hi"⟩, ⟨"bob", "yo"⟩]⟩ ∧ s1.latestMsgID = entryBob.ID ∧
      (∃ s2, s1.step 1 (.pushed none) = some (1, s2) ∧
        s2.loc = .atSelect ∧ s2.latestMsgID = entryBob.ID) ∧
      (∀ e, ∃ s2, s1.step 1 (.pushed (some e)) = some (add32 1 (-1), s2) ∧
        s2.loc = .returned .sendError (some e) ∧ s2.latestMsgID = entryBob.ID) :=
  cursor_is_last_id_from_push_on 1
    { Session.fresh with loc := .inXRead ⟨[streamName, "0"], some 1⟩ }
    ⟨[streamName, "0"], some 1⟩ ⟨"chat", [entryAlice, entryBob]⟩ []
    [⟨"alice", "hi"⟩, ⟨"bob", "yo"⟩] entryBob rfl (by decide) (by decide)

/-- C9: a tick in which the store reports no data (an error that is `redis.Nil`, or a
first stream with zero entries) brings the call back to `select` with the counter, the
cursor, the push history, the cancellation flag and the counter history unchanged and
nothing returned; only the tick is consumed and the poll recorded. -/
theorem tick_without_data_changes_nothing (n : Int) (s : Session) (r : XReadResult)
    (hloc : s.loc = .atSelect) (htick : s.tickPending = true)
    (hr : (∃ e, r = .error e ∧ errorsIs e redisNil = true) ∨
      (∃ s0 rest, r = .ok (s0 :: rest) ∧ s0.Messages = [])) :
    Session.run n s [.selectTick, .reply r] =
      some (n, { s with
                   tickPending := false
                   polls := s.polls ++ [⟨[streamName, s.latestMsgID], some 1⟩] }) := by
  rcases hr with ⟨e, rfl, he⟩ | ⟨s0, rest, rfl, h0⟩
  · simp [Session.run, Session.step, hloc, htick, Session.handleReply, he]
  · simp [Session.run, Session.step, hloc, htick, Session.handleReply, h0]

/-- Witness of C9 on a call at `select` whose poll is answered with `redis.Nil`. -/
theorem tick_without_data_changes_nothing_witness :
    Session.run 1 { Session.fresh with tickPending := true }
        [.selectTick, .reply (.error redisNil)] =
      some (1, { ({ Session.fresh with tickPending := true } : Session) with
                   tickPending := false
                   polls := [] ++ [⟨[streamName, "0"], some 1⟩] }) :=
  tick_without_data_changes_nothing 1 { Session.fresh with tickPending := true }
    (.error redisNil) rfl rfl (Or.inl ⟨redisNil, rfl, by decide⟩)

/-- C6, the code at the failing input: on an empty log, whatever the id order of the
store and its way of reporting a read that finds nothing, the read that `Receive` issues
(cursor `"0"`, `Block` at its zero value, hence `BLOCK 0`) gets no answer, and `Receive`
does not return: it returns neither an empty message list nor an error. -/
theorem Receive_on_empty_log (key : String → Nat) (nilOnEmpty : Bool) (c : StoreChoice) :
    MemStore.XRead ⟨[streamName, "0"], some 0⟩ ⟨key, nilOnEmpty, []⟩ = none ∧
    Receive (memClient c) ⟨key, nilOnEmpty, []⟩ = .waits ∧
    Receive (memClient c) ⟨key, nilOnEmpty, []⟩ ≠ .ret ⟨[]⟩ := by
  have h : Receive (memClient c) ⟨key, nilOnEmpty, []⟩ = .waits := rfl
  refine ⟨rfl, h, ?_⟩
  rw [h]
  intro hc
  cases hc

/-! ## Cancellation -/

/-- C8, as stated, fails: with the cancellation signalled and a tick pending, the call
at `select` can take the tick case, so that one more poll is issued and one more batch
is pushed after the cancellation. -/
theorem poll_and_push_after_cancellation :
    (ReceiveStream 0 [.start none, .tickFire, .cancel]).map
        (fun p => (p.2.loc, p.2.cancelled, p.2.polls.length, p.2.pushes.length)) =
      some (.atSelect, true, 0, 0) ∧
    (ReceiveStream 0
        [.start none, .tickFire, .cancel, .selectTick,
         .reply (.ok [⟨"chat", [entryAlice]⟩]), .pushed none]).map
        (fun p => (p.2.loc, p.2.cancelled, p.2.polls.length, p.2.pushes.length)) =
      some (.atSelect, true, 1, 1) := by
  decide

/-- C8, amended: for a call that waits at `select` with the cancellation signalled, the
`Done` case is enabled and ends the call with `nil`, issuing no poll and pushing no
batch; when no tick is pending it is the only enabled move of the goroutine; when a tick
is pending the enabled moves are the `Done` case and the tick case. -/
theorem select_after_cancellation (n : Int) (s : Session)
    (hloc : s.loc = .atSelect) (hc : s.cancelled = true) :
    s.step n .selectDone =
        some (add32 n (-1), { s with loc := .returned .cancelled none, decs := s.decs + 1 }) ∧
    (s.tickPending = false →
      ∀ ev : Ev, ev.isEnv = false → ((s.step n ev).isSome = true ↔ ev = .selectDone)) ∧
    (s.tickPending = true →
      ∀ ev : Ev, ev.isEnv = false →
        ((s.step n ev).isSome = true ↔ ev = .selectDone ∨ ev = .selectTick)) := by
  refine ⟨?_, ?_, ?_⟩
  · simp [Session.step, hloc, hc, Session.leave]
  · intro ht ev hev
    cases ev <;> simp [Session.step, hloc, hc, ht, Ev.isEnv] at hev ⊢
  · intro ht ev hev
    cases ev <;> simp [Session.step, hloc, hc, ht, Ev.isEnv] at hev ⊢

/-- Witness of the amended C8 on a call at `select` whose context is cancelled. -/
theorem select_after_cancellation_witness :
    ({ Session.fresh with cancelled := true } : Session).step 1 .selectDone =
        some (add32 1 (-1),
          { ({ Session.fresh with cancelled := true } : Session) with
              loc := .returned .cancelled none, decs := 0 + 1 }) ∧
    (({ Session.fresh with cancelled := true } : Session).tickPending = false →
      ∀ ev : Ev, ev.isEnv = false →
        ((({ Session.fresh with cancelled := true } : Session).step 1 ev).isSome = true ↔
          ev = .selectDone)) ∧
    (({ Session.fresh with cancelled := true } : Session).tickPending = true →
      ∀ ev : Ev, ev.isEnv = false →
        ((({ Session.fresh with cancelled := true } : Session).step 1 ev).isSome = true ↔
          ev = .selectDone ∨ ev = .selectTick)) :=
  select_after_cancellation 1 { Session.fresh with cancelled := true } rfl rfl

/-! ## What `ReceiveStream` returns -/

/-- A move from a location that has not ended reaches `return err` with a non-nil error
exactly when it is a failed prologue, a failed poll that is not `redis.Nil`, or a failed
push, and the error returned is the one of that failure. -/
theorem step_returns_error_iff {n n1 : Int} {s s1 : Session} {ev : Ev}
    (hs : s.loc.phase ≠ .Terminated) (h : s.step n ev = some (n1, s1)) (e : GoError) :
    (∃ via, s1.loc = .returned via (some e)) ↔
      (ev = .start (some e) ∨ (ev = .reply (.error e) ∧ errorsIs e redisNil = false) ∨
        ev = .pushed (some e)) := by
  cases ev with
  | cancel =>
    simp only [Session.step, Option.some.injEq, Prod.mk.injEq] at h
    obtain ⟨-, rfl⟩ := h
    cases hl : s.loc <;> simp_all [Loc.phase]
  | tickFire =>
    simp only [Session.step] at h
    split at h
    · simp only [Option.some.injEq, Prod.mk.injEq] at h
      obtain ⟨-, rfl⟩ := h
      cases hl : s.loc <;> simp_all [Loc.phase]
    · simp at h
  | start u =>
    cases hl : s.loc <;> cases u <;> simp [Session.step, hl] at h <;>
      obtain ⟨-, rfl⟩ := h <;> simp
  | selectDone =>
    cases hl : s.loc <;> simp [Session.step, hl, Session.leave] at h
    obtain ⟨-, -, rfl⟩ := h
    simp
  | selectTick =>
    cases hl : s.loc <;> simp [Session.step, hl] at h
    obtain ⟨-, -, rfl⟩ := h
    simp
  | pushed r =>
    cases hl : s.loc <;> cases r <;> simp [Session.step, hl, Session.leave] at h <;>
      obtain ⟨-, rfl⟩ := h <;> simp
  | reply r =>
    cases hl : s.loc <;> simp [Session.step, hl] at h
    cases r with
    | error e0 =>
      by_cases he : errorsIs e0 redisNil = true
      · simp [Session.handleReply, he] at h
        obtain ⟨-, rfl⟩ := h
        simp
        intro h1
        subst h1
        exact he
      · simp [Session.handleReply, he, Session.leave] at h
        obtain ⟨-, rfl⟩ := h
        simp
        intro h1
        subst h1
        simpa using he
    | ok streams =>
      cases streams with
      | nil =>
        simp [Session.handleReply, Session.leave] at h
        obtain ⟨-, rfl⟩ := h
        simp
      | cons s0 rest =>
        simp only [Session.handleReply] at h
        split at h
        · simp only [Prod.mk.injEq] at h
          obtain ⟨-, rfl⟩ := h
          simp
        · split at h
          · simp only [Session.leave, Prod.mk.injEq] at h
            obtain ⟨-, rfl⟩ := h
            simp
          · simp only [Prod.mk.injEq] at h
            obtain ⟨-, rfl⟩ := h
            simp

/-- A call that has ended only sees its context cancelled. -/
theorem terminated_step {n n1 : Int} {s s1 : Session} {ev : Ev}
    (hs : s.loc.phase = .Terminated) (h : s.step n ev = some (n1, s1)) :
    ev = .cancel ∧ s1.loc = s.loc := by
  cases ev with
  | cancel =>
    simp only [Session.step, Option.some.injEq, Prod.mk.injEq] at h
    obtain ⟨-, rfl⟩ := h
    exact ⟨rfl, rfl⟩
  | tickFire => simp [Session.step, hs] at h
  | start u => cases hl : s.loc <;> simp_all [Session.step, Loc.phase]
  | selectDone => cases hl : s.loc <;> simp_all [Session.step, Loc.phase]
  | selectTick => cases hl : s.loc <;> simp_all [Session.step, Loc.phase]
  | reply r => cases hl : s.loc <;> simp_all [Session.step, Loc.phase]
  | pushed r => cases hl : s.loc <;> simp_all [Session.step, Loc.phase]

theorem terminated_run :
    ∀ (evs : List Ev) {n n' : Int} {s s' : Session}, s.loc.phase = .Terminated →
      Session.run n s evs = some (n', s') → s'.loc = s.loc ∧ ∀ ev ∈ evs, ev = .cancel
  | [], n, n', s, s', _, h => by
    simp only [Session.run, Option.some.injEq, Prod.mk.injEq] at h
    obtain ⟨-, rfl⟩ := h
    exact ⟨rfl, by simp⟩
  | ev :: evs, n, n', s, s', hs, h => by
    simp only [Session.run] at h
    cases hst : s.step n ev with
    | none => simp [hst] at h
    | some p =>
      obtain ⟨n1, s1⟩ := p
      simp only [hst] at h
      obtain ⟨hev, hloc⟩ := terminated_step hs hst
      obtain ⟨h1, h2⟩ := terminated_run evs (by rw [hloc]; exact hs) h
      refine ⟨h1.trans hloc, ?_⟩
      intro x hx
      rcases List.mem_cons.mp hx with rfl | hx
      · exact hev
      · exact h2 x hx

/-- Run-level form of `step_returns_error_iff`, from any location that has not ended. -/
theorem run_returns_error_iff :
    ∀ (evs : List Ev) {n n' : Int} {s s' : Session}, s.loc.phase ≠ .Terminated →
      Session.run n s evs = some (n', s') → ∀ e : GoError,
      ((∃ via, s'.loc = .returned via (some e)) ↔
        (Ev.start (some e) ∈ evs ∨
          (Ev.reply (.error e) ∈ evs ∧ errorsIs e redisNil = false) ∨
          Ev.pushed (some e) ∈ evs))
  | [], n, n', s, s', hs, h, e => by
    simp only [Session.run, Option.some.injEq, Prod.mk.injEq] at h
    obtain ⟨-, rfl⟩ := h
    simp only [List.not_mem_nil, false_and, or_self, iff_false, not_exists]
    intro via hv
    rw [hv] at hs
    exact hs rfl
  | ev :: evs, n, n', s, s', hs, h, e => by
    simp only [Session.run] at h
    cases hst : s.step n ev with
    | none => simp [hst] at h
    | some p =>
      obtain ⟨n1, s1⟩ := p
      simp only [hst] at h
      have hstep := step_returns_error_iff hs hst e
      by_cases h1 : s1.loc.phase = .Terminated
      · obtain ⟨hloc, hall⟩ := terminated_run evs h1 h
        rw [hloc, hstep]
        have hno : ∀ x : Ev, x ≠ .cancel → x ∉ evs := fun x hx hmem => hx (hall x hmem)
        simp only [List.mem_cons]
        have a1 := hno (.start (some e)) (by simp)
        have a2 := hno (.reply (.error e)) (by simp)
        have a3 := hno (.pushed (some e)) (by simp)
        constructor
        · rintro (rfl | ⟨rfl, he⟩ | rfl)
          · exact Or.inl (Or.inl rfl)
          · exact Or.inr (Or.inl ⟨Or.inl rfl, he⟩)
          · exact Or.inr (Or.inr (Or.inl rfl))
        · rintro ((hx | hx) | ⟨(hx | hx), he⟩ | (hx | hx))
          · exact Or.inl hx.symm
          · exact absurd hx a1
          · exact Or.inr (Or.inl ⟨hx.symm, he⟩)
          · exact absurd hx a2
          · exact Or.inr (Or.inr hx.symm)
          · exact absurd hx a3
      · have ih := run_returns_error_iff evs h1 h e
        rw [ih]
        have hnot : ¬ (ev = .start (some e) ∨
            (ev = .reply (.error e) ∧ errorsIs e redisNil = false) ∨
            ev = .pushed (some e)) := by
          rw [← hstep]
          rintro ⟨via, hv⟩
          rw [hv] at h1
          exact h1 rfl
        simp only [List.mem_cons]
        constructor
        · rintro (hx | ⟨hx, he⟩ | hx)
          · exact Or.inl (Or.inr hx)
          · exact Or.inr (Or.inl ⟨Or.inr hx, he⟩)
          · exact Or.inr (Or.inr (Or.inr hx))
        · rintro ((hx | hx) | ⟨(hx | hx), he⟩ | (hx | hx))
          · exact absurd (Or.inl hx.symm) hnot
          · exact Or.inl hx
          · exact absurd (Or.inr (Or.inl ⟨hx.symm, he⟩)) hnot
          · exact Or.inr (Or.inl ⟨hx, he⟩)
          · exact absurd (Or.inr (Or.inr hx.symm)) hnot
          · exact Or.inr (Or.inr hx)

/-- The `Done` case is the only way to the exit `cancelled`, and it returns `nil`. -/
theorem step_cancelled_exit_nil {n n1 : Int} {s s1 : Session} {ev : Ev}
    (hs : ∀ err, s.loc = .returned .cancelled err → err = none)
    (h : s.step n ev = some (n1, s1)) :
    ∀ err, s1.loc = .returned .cancelled err → err = none := by
  by_cases ht : s.loc.phase = .Terminated
  · rw [(terminated_step ht h).2]
    exact hs
  · intro err herr
    cases err with
    | none => rfl
    | some e =>
      have h1 := (step_returns_error_iff ht h e).mp ⟨_, herr⟩
      rcases h1 with rfl | ⟨rfl, he⟩ | rfl
      · cases hl : s.loc <;> simp [Session.step, hl] at h
        obtain ⟨-, rfl⟩ := h
        simp at herr
      · cases hl : s.loc <;> simp [Session.step, hl, Session.handleReply, he, Session.leave] at h
        obtain ⟨-, rfl⟩ := h
        simp at herr
      · cases hl : s.loc <;> simp [Session.step, hl, Session.leave] at h
        obtain ⟨-, rfl⟩ := h
        simp at herr

theorem run_cancelled_exit_nil :
    ∀ (evs : List Ev) {n n' : Int} {s s' : Session},
      (∀ err, s.loc = .returned .cancelled err → err = none) →
      Session.run n s evs = some (n', s') →
      ∀ err, s'.loc = .returned .cancelled err → err = none
  | [], n, n', s, s', hs, h => by
    simp only [Session.run, Option.some.injEq, Prod.mk.injEq] at h
    obtain ⟨-, rfl⟩ := h
    exact hs
  | ev :: evs, n, n', s, s', hs, h => by
    simp only [Session.run] at h
    cases hst : s.step n ev with
    | none => simp [hst] at h
    | some p =>
      obtain ⟨n1, s1⟩ := p
      simp only [hst] at h
      exact run_cancelled_exit_nil evs (step_cancelled_exit_nil hs hst) h

/-- C5, as stated, fails: when `uuid.NewRandom` fails, `ReceiveStream` returns that
error although no poll was issued and no push attempted. -/
theorem uuid_failure_returns_error_without_poll :
    ReceiveStream 0 [.start (some (.leaf "unexpected EOF"))] =
      some (0, { Session.init with
                   loc := .returned .uuidError (some (.leaf "unexpected EOF")) }) ∧
    Session.init.polls = [] ∧ Session.init.pushes = [] := by
  decide

/-- C5, amended: in every run of a call of `ReceiveStream`, the call has returned the
non-nil error `e` if and only if `uuid.NewRandom` failed with `e`, or some poll failed
with `e` and `e` is not `redis.Nil`, or some push failed with `e`; a call that ended
through the cancellation case returned `nil`; and a poll that fails with `redis.Nil`
leads back to `select`. -/
theorem ReceiveStream_returns_error_iff (evs : List Ev) (n n' : Int) (s' : Session)
    (h : ReceiveStream n evs = some (n', s')) :
    (∀ e : GoError,
      ((∃ via, s'.loc = .returned via (some e)) ↔
        (Ev.start (some e) ∈ evs ∨
          (Ev.reply (.error e) ∈ evs ∧ errorsIs e redisNil = false) ∨
          Ev.pushed (some e) ∈ evs))) ∧
    (∀ err, s'.loc = .returned .cancelled err → err = none) ∧
    (∀ (m : Int) (s : Session) (a : XReadArgs) (e : GoError), s.loc = .inXRead a →
      errorsIs e redisNil = true →
      s.step m (.reply (.error e)) = some (m, { s with loc := .atSelect })) :=
  ⟨run_returns_error_iff evs (by decide) h,
    run_cancelled_exit_nil evs (by intro err herr; cases herr) h,
    fun m s a e hl he => by simp [Session.step, hl, Session.handleReply, he]⟩

/-- Witness of the amended C5 on a call whose first poll fails. -/
theorem ReceiveStream_returns_error_iff_witness :
    ReceiveStream 0
        [.start none, .tickFire, .selectTick, .reply (.error (.leaf "connection refused"))] =
      some (0, { Session.fresh with
                   loc := .returned .readError (some (.leaf "connection refused"))
                   polls := [⟨[streamName, "0"], some 1⟩]
                   decs := 1 }) ∧
    ((∀ e : GoError,
      ((∃ via, ({ Session.fresh with
                   loc := .returned .readError (some (.leaf "connection refused"))
                   polls := [⟨[streamName, "0"], some 1⟩]
                   decs := 1 } : Session).loc = .returned via (some e)) ↔
        (Ev.start (some e) ∈
            [Ev.start none, .tickFire, .selectTick,
              .reply (.error (.leaf "connection refused"))] ∨
          (Ev.reply (.error e) ∈
            [Ev.start none, .tickFire, .selectTick,
              .reply (.error (.leaf "connection refused"))] ∧
            errorsIs e redisNil = false) ∨
          Ev.pushed (some e) ∈
            [Ev.start none, .tickFire, .selectTick,
              .reply (.error (.leaf "connection refused"))]))) ∧
    (∀ err, ({ Session.fresh with
                   loc := .returned .readError (some (.leaf "connection refused"))
                   polls := [⟨[streamName, "0"], some 1⟩]
                   decs := 1 } : Session).loc = .returned .cancelled err → err = none) ∧
    (∀ (m : Int) (s : Session) (a : XReadArgs) (e : GoError), s.loc = .inXRead a →
      errorsIs e redisNil = true →
      s.step m (.reply (.error e)) = some (m, { s with loc := .atSelect }))) :=
  ⟨by decide,
    ReceiveStream_returns_error_iff
      [.start none, .tickFire, .selectTick, .reply (.error (.leaf "connection refused"))]
      0 0 _ (by decide)⟩

/-! ## The counter `nowStreaming` -/

theorem wrap32_wrap32_add (a b : Int) : wrap32 (wrap32 a + b) = wrap32 (a + b) := by
  unfold wrap32
  omega

theorem wrap32_of_lt {c : Nat} (h : c < 2147483648) : wrap32 c = c := by
  unfold wrap32
  omega

/-- Effect of one event of a call on the counter and on the counter history. -/
theorem step_counter {n n1 : Int} {s s1 : Session} {ev : Ev}
    (h : s.step n ev = some (n1, s1))
    (hc : s.incs = s.loc.incsDone ∧ s.decs = s.loc.decsDone) :
    (∀ c : Int, n = wrap32 c → n1 = wrap32 (c + s1.pol - s.pol)) ∧
      s1.incs = s1.loc.incsDone ∧ s1.decs = s1.loc.decsDone := by
  obtain ⟨hi, hd⟩ := hc
  have keep : ∀ (a b : Nat), a = b → ∀ c : Int, n = wrap32 c → n = wrap32 (c + a - b) := by
    intro a b hab c hn
    rw [hn, hab]
    congr 1
    omega
  have up : ∀ (a b : Nat), a = 1 → b = 0 →
      ∀ c : Int, n = wrap32 c → add32 n 1 = wrap32 (c + a - b) := by
    intro a b ha hb c hn
    rw [hn, add32, wrap32_wrap32_add, ha, hb]
    congr 1
    omega
  have down : ∀ (a b : Nat), a = 0 → b = 1 →
      ∀ c : Int, n = wrap32 c → add32 n (-1) = wrap32 (c + a - b) := by
    intro a b ha hb c hn
    rw [hn, add32, wrap32_wrap32_add, ha, hb]
    congr 1
    omega
  cases ev with
  | cancel =>
    simp only [Session.step, Option.some.injEq, Prod.mk.injEq] at h
    obtain ⟨rfl, rfl⟩ := h
    exact ⟨keep _ _ rfl, hi, hd⟩
  | tickFire =>
    simp only [Session.step] at h
    split at h
    · simp only [Option.some.injEq, Prod.mk.injEq] at h
      obtain ⟨rfl, rfl⟩ := h
      exact ⟨keep _ _ rfl, hi, hd⟩
    · simp at h
  | start u =>
    cases hl : s.loc <;> cases u <;> simp [Session.step, hl] at h <;>
      obtain ⟨rfl, rfl⟩ := h
    · simp only [hl, Loc.incsDone, Loc.decsDone] at hi hd
      exact ⟨up _ _ (by simp [Session.pol, Loc.phase]) (by simp [Session.pol, Loc.phase, hl]),
        by simp [hi, Loc.incsDone], by simp [hd, Loc.decsDone]⟩
    · simp only [hl, Loc.incsDone, Loc.decsDone] at hi hd
      exact ⟨keep _ _ (by simp [Session.pol, Loc.phase, hl]),
        by simp [hi, Loc.incsDone], by simp [hd, Loc.decsDone]⟩
  | selectDone =>
    cases hl : s.loc <;> simp [Session.step, hl, Session.leave] at h
    obtain ⟨-, rfl, rfl⟩ := h
    simp only [hl, Loc.incsDone, Loc.decsDone] at hi hd
    exact ⟨down _ _ (by simp [Session.pol, Loc.phase]) (by simp [Session.pol, Loc.phase, hl]),
      by simp [hi, Loc.incsDone], by simp [hd, Loc.decsDone]⟩
  | selectTick =>
    cases hl : s.loc <;> simp [Session.step, hl] at h
    obtain ⟨-, rfl, rfl⟩ := h
    simp only [hl, Loc.incsDone, Loc.decsDone] at hi hd
    exact ⟨keep _ _ (by simp [Session.pol, Loc.phase, hl]),
      by simp [hi, Loc.incsDone], by simp [hd, Loc.decsDone]⟩
  | pushed r =>
    cases hl : s.loc <;> cases r <;> simp [Session.step, hl, Session.leave] at h <;>
      obtain ⟨rfl, rfl⟩ := h
    · simp only [hl, Loc.incsDone, Loc.decsDone] at hi hd
      exact ⟨keep _ _ (by simp [Session.pol, Loc.phase, hl]),
        by simp [hi, Loc.incsDone], by simp [hd, Loc.decsDone]⟩
    · simp only [hl, Loc.incsDone, Loc.decsDone] at hi hd
      exact ⟨down _ _ (by simp [Session.pol, Loc.phase]) (by simp [Session.pol, Loc.phase, hl]),
        by simp [hi, Loc.incsDone], by simp [hd, Loc.decsDone]⟩
  | reply r =>
    cases hl : s.loc <;> simp [Session.step, hl] at h
    have hp : s.pol = 1 := by simp [Session.pol, hl, Loc.phase]
    simp only [hl, Loc.incsDone, Loc.decsDone] at hi hd
    have back : ∀ l : Loc, (n, { s with loc := l }) = (n1, s1) →
        l.phase = .Polling → l.incsDone = 1 → l.decsDone = 0 →
        (∀ c : Int, n = wrap32 c → n1 = wrap32 (c + s1.pol - s.pol)) ∧
          s1.incs = s1.loc.incsDone ∧ s1.decs = s1.loc.decsDone := by
      intro l heq hph h1 h2
      simp only [Prod.mk.injEq] at heq
      obtain ⟨rfl, rfl⟩ := heq
      exact ⟨keep _ _ (by rw [hp]; simp [Session.pol, hph]), by simp [hi, h1],
        by simp [hd, h2]⟩
    have out : ∀ l : Loc, s.leave n l = (n1, s1) →
        l.phase = .Terminated → l.incsDone = 1 → l.decsDone = 1 →
        (∀ c : Int, n = wrap32 c → n1 = wrap32 (c + s1.pol - s.pol)) ∧
          s1.incs = s1.loc.incsDone ∧ s1.decs = s1.loc.decsDone := by
      intro l heq hph h1 h2
      simp only [Session.leave, Prod.mk.injEq] at heq
      obtain ⟨rfl, rfl⟩ := heq
      exact ⟨down _ _ (by simp [Session.pol, hph]) hp, by simp [hi, h1], by simp [hd, h2]⟩
    cases r with
    | error e0 =>
      by_cases he : errorsIs e0 redisNil = true
      · simp only [Session.handleReply, he, if_true] at h
        exact back _ h rfl rfl rfl
      · simp only [Session.handleReply, he] at h
        exact out _ h rfl rfl rfl
    | ok streams =>
      cases streams with
      | nil =>
        simp only [Session.handleReply] at h
        exact out _ h rfl rfl rfl
      | cons s0 rest =>
        simp only [Session.handleReply] at h
        split at h
        · exact back _ h rfl rfl rfl
        · split at h
          · exact out _ h rfl rfl rfl
          · simp only [Prod.mk.injEq] at h
            obtain ⟨rfl, rfl⟩ := h
            exact ⟨keep _ _ (by rw [hp]; simp [Session.pol, Loc.phase]),
              by simp [hi, Loc.incsDone], by simp [hd, Loc.decsDone]⟩

theorem countP_polling_cons (s : Session) (ss : List Session) :
    (s :: ss).countP (fun s => decide (s.loc.phase = .Polling)) =
      ss.countP (fun s => decide (s.loc.phase = .Polling)) + s.pol := by
  rw [List.countP_cons]
  simp [Session.pol]

theorem stepAt_counter :
    ∀ (ss : List Session) (i : Nat) {n n1 : Int} {ss1 : List Session} {ev : Ev},
      stepAt n ss i ev = some (n1, ss1) →
      (∀ s ∈ ss, s.incs = s.loc.incsDone ∧ s.decs = s.loc.decsDone) →
      (∀ c : Int, n = wrap32 c →
        n1 = wrap32 (c + (ss1.countP (fun s => decide (s.loc.phase = .Polling)) : Nat) -
          (ss.countP (fun s => decide (s.loc.phase = .Polling)) : Nat))) ∧
        ∀ s ∈ ss1, s.incs = s.loc.incsDone ∧ s.decs = s.loc.decsDone
  | [], _, _, _, _, _, h, _ => by simp [stepAt] at h
  | s :: rest, 0, n, n1, ss1, ev, h, hc => by
    simp only [stepAt] at h
    cases hst : s.step n ev with
    | none => simp [hst] at h
    | some p =>
      obtain ⟨n2, s2⟩ := p
      simp only [hst, Option.some.injEq, Prod.mk.injEq] at h
      obtain ⟨rfl, rfl⟩ := h
      obtain ⟨h1, h2⟩ := step_counter hst (hc s (List.mem_cons_self _ _))
      refine ⟨?_, ?_⟩
      · intro c hn
        rw [h1 c hn, countP_polling_cons, countP_polling_cons]
        congr 1
        push_cast
        omega
      · intro x hx
        rcases List.mem_cons.mp hx with rfl | hx
        · exact h2
        · exact hc x (List.mem_cons_of_mem _ hx)
  | s :: rest, i + 1, n, n1, ss1, ev, h, hc => by
    simp only [stepAt] at h
    cases hst : stepAt n rest i ev with
    | none => simp [hst] at h
    | some p =>
      obtain ⟨n2, rest2⟩ := p
      simp only [hst, Option.some.injEq, Prod.mk.injEq] at h
      obtain ⟨rfl, rfl⟩ := h
      obtain ⟨h1, h2⟩ := stepAt_counter rest i hst
        (fun x hx => hc x (List.mem_cons_of_mem _ hx))
      refine ⟨?_, ?_⟩
      · intro c hn
        rw [h1 c hn, countP_polling_cons, countP_polling_cons]
        congr 1
        push_cast
        omega
      · intro x hx
        rcases List.mem_cons.mp hx with rfl | hx
        · exact hc x (List.mem_cons_self _ _)
        · exact h2 x hx

theorem World.step_counted {w w1 : World} {e : WorldEv} (hw : w.Inv) (h : w.step e = some w1) :
    w1.Inv := by
  obtain ⟨hn, hc⟩ := hw
  cases e with
  | call =>
    simp only [World.step, Option.some.injEq] at h
    subst h
    refine ⟨?_, ?_⟩
    · simp only [World.polling, List.countP_append] at hn ⊢
      rw [hn]
      simp [List.countP_cons, Session.init, Loc.phase]
    · intro x hx
      rcases List.mem_append.mp hx with hx | hx
      · exact hc x hx
      · rw [List.mem_singleton.mp hx]
        exact ⟨rfl, rfl⟩
  | sess i ev =>
    simp only [World.step] at h
    cases hst : stepAt w.nowStreaming w.sessions i ev with
    | none => simp [hst] at h
    | some p =>
      obtain ⟨n1, ss1⟩ := p
      simp only [hst, Option.some.injEq] at h
      subst h
      obtain ⟨h1, h2⟩ := stepAt_counter w.sessions i hst hc
      refine ⟨?_, h2⟩
      have := h1 _ hn
      simp only [World.polling] at this ⊢
      rw [this]
      congr 1
      omega

theorem World.run_counted :
    ∀ (evs : List WorldEv) {w w1 : World}, w.Inv → World.run w evs = some w1 → w1.Inv
  | [], w, w1, hw, h => by
    simp only [World.run, Option.some.injEq] at h
    subst h
    exact hw
  | e :: evs, w, w1, hw, h => by
    simp only [World.run] at h
    cases hst : w.step e with
    | none => simp [hst] at h
    | some w2 =>
      simp only [hst] at h
      exact World.run_counted evs (World.step_counted hw hst) h

theorem World.init_counted : World.init.Inv :=
  ⟨by decide, by intro s hs; cases hs⟩

/-- C1, amended: in every reachable state of every interleaving of any number of calls,
`nowStreaming` is the int32 image of the number of calls in `Polling`; whenever fewer
than 2^31 calls are in `Polling` it equals that number and is not negative; and every
call that has ended through the cancellation case, a failed poll or a failed push has
executed `Add(1)` once and `Add(-1)` once. -/
theorem nowStreaming_counts_polling (evs : List WorldEv) (w : World)
    (h : World.run World.init evs = some w) :
    w.nowStreaming = wrap32 w.polling ∧
    (w.polling < 2147483648 → w.nowStreaming = w.polling ∧ 0 ≤ w.nowStreaming) ∧
    (∀ s ∈ w.sessions, ∀ via err, s.loc = .returned via err → via ≠ .uuidError →
      s.incs = 1 ∧ s.decs = 1) := by
  obtain ⟨hn, hc⟩ := World.run_counted evs World.init_counted h
  refine ⟨hn, ?_, ?_⟩
  · intro hlt
    rw [hn, wrap32_of_lt hlt]
    exact ⟨rfl, Int.natCast_nonneg _⟩
  · intro s hs via err hl hvia
    obtain ⟨h1, h2⟩ := hc s hs
    rw [hl] at h1 h2
    cases via <;> simp_all [Loc.incsDone, Loc.decsDone]

/-- Witness of the amended C1: two calls, the first of which is cancelled. -/
theorem nowStreaming_counts_polling_witness :
    World.run World.init
        [.call, .call, .sess 0 (.start none), .sess 1 (.start none), .sess 0 .cancel,
         .sess 0 .selectDone] =
      some ⟨1, [{ Session.fresh with
                    loc := .returned .cancelled none, cancelled := true, decs := 1 },
                Session.fresh]⟩ ∧
    ((⟨1, [{ Session.fresh with
               loc := .returned .cancelled none, cancelled := true, decs := 1 },
           Session.fresh]⟩ : World).nowStreaming =
        wrap32 (⟨1, [{ Session.fresh with
               loc := .returned .cancelled none, cancelled := true, decs := 1 },
           Session.fresh]⟩ : World).polling ∧
    ((⟨1, [{ Session.fresh with
               loc := .returned .cancelled none, cancelled := true, decs := 1 },
           Session.fresh]⟩ : World).polling < 2147483648 →
      (⟨1, [{ Session.fresh with
               loc := .returned .cancelled none, cancelled := true, decs := 1 },
           Session.fresh]⟩ : World).nowStreaming =
        (⟨1, [{ Session.fresh with
               loc := .returned .cancelled none, cancelled := true, decs := 1 },
           Session.fresh]⟩ : World).polling ∧
      0 ≤ (⟨1, [{ Session.fresh with
               loc := .returned .cancelled none, cancelled := true, decs := 1 },
           Session.fresh]⟩ : World).nowStreaming) ∧
    (∀ s ∈ (⟨1, [{ Session.fresh with
               loc := .returned .cancelled none, cancelled := true, decs := 1 },
           Session.fresh]⟩ : World).sessions,
      ∀ via err, s.loc = .returned via err → via ≠ .uuidError → s.incs = 1 ∧ s.decs = 1)) :=
  ⟨by decide,
    nowStreaming_counts_polling
      [.call, .call, .sess 0 (.start none), .sess 1 (.start none), .sess 0 .cancel,
       .sess 0 .selectDone] _ (by decide)⟩

theorem World.run_append :
    ∀ (a b : List WorldEv) (w : World),
      World.run w (a ++ b) =
        match World.run w a with
        | some w1 => World.run w1 b
        | none => none
  | [], b, w => rfl
  | e :: a, b, w => by
    simp only [List.cons_append, World.run]
    cases w.step e with
    | none => rfl
    | some w2 => exact World.run_append a b w2

theorem stepAt_length_append :
    ∀ (l : List Session) (s : Session) (r : List Session) (n : Int) (ev : Ev),
      stepAt n (l ++ s :: r) l.length ev =
        match s.step n ev with
        | some (n1, s1) => some (n1, l ++ s1 :: r)
        | none => none
  | [], s, r, n, ev => by
    simp only [List.nil_append, List.length_nil, stepAt]
  | x :: l, s, r, n, ev => by
    have ih := stepAt_length_append l s r n ev
    show stepAt n (x :: (l ++ s :: r)) (l.length + 1) ev = _
    simp only [stepAt, ih]
    cases s.step n ev with
    | none => rfl
    | some p => rfl

/-- Entering `k` calls one after the other leaves `k` calls in `Polling` and the counter
at the int32 image of `k`. -/
theorem fillScript_run :
    ∀ k : Nat, World.run World.init (fillScript k) =
      some ⟨wrap32 k, List.replicate k Session.fresh⟩
  | 0 => by
    simp only [fillScript, World.run, World.init, List.replicate]
    rfl
  | k + 1 => by
    rw [fillScript, World.run_append, fillScript_run k]
    simp only [World.run, World.step]
    have hlen : (List.replicate k Session.fresh).length = k := List.length_replicate _ _
    have hstep := stepAt_length_append (List.replicate k Session.fresh) Session.init []
      (wrap32 k) (.start none)
    rw [hlen] at hstep
    rw [hstep]
    have hfresh : Session.init.step (wrap32 k) (.start none) =
        some (wrap32 ((k + 1 : Nat) : Int), Session.fresh) := by
      simp only [Session.step, Session.init, Session.fresh, add32, wrap32_wrap32_add]
      push_cast
      rfl
    rw [hfresh]
    simp only [List.replicate_succ']

theorem polling_replicate_fresh (n : Int) (k : Nat) :
    (⟨n, List.replicate k Session.fresh⟩ : World).polling = k := by
  simp only [World.polling, List.countP_replicate]
  simp [Session.fresh, Loc.phase]

/-- C1, as stated, fails: once 2^31 calls are in `Polling` at the same time the counter
`nowStreaming`, an `atomic.Int32`, holds -2^31, which is negative and differs from the
number of calls in `Polling`. -/
theorem nowStreaming_negative_at_2_pow_31 :
    ∃ w : World, World.run World.init (fillScript 2147483648) = some w ∧
      w.polling = 2147483648 ∧ w.nowStreaming = -2147483648 :=
  ⟨⟨wrap32 (2147483648 : Nat), List.replicate 2147483648 Session.fresh⟩,
    fillScript_run 2147483648, polling_replicate_fresh _ _, by
      show wrap32 (2147483648 : Nat) = -2147483648
      unfold wrap32
      norm_num⟩

/-! ## `Send` followed by `Receive` -/

theorem decodeMessage_sendValues (id : String) (req : SendRequest) :
    decodeMessage ⟨id, sendValues req⟩ = some ⟨req.Name, req.Message⟩ := by
  have h1 : ("name" == "msg") = false := by decide
  simp [decodeMessage, sendValues, List.lookup, asString, h1]

theorem decodeAll_append :
    ∀ {a b : List XMessage} {x y : List Message}, decodeAll a = some x →
      decodeAll b = some y → decodeAll (a ++ b) = some (x ++ y)
  | [], b, x, y, ha, hb => by
    simp only [decodeAll, Option.some.injEq] at ha
    subst ha
    simpa using hb
  | e :: a, b, x, y, ha, hb => by
    simp only [decodeAll] at ha
    cases hd : decodeMessage e with
    | none => simp [hd] at ha
    | some m =>
      cases hr : decodeAll a with
      | none => simp [hd, hr] at ha
      | some ms =>
        simp only [hd, hr, Option.some.injEq] at ha
        subst ha
        simp [decodeAll, hd, decodeAll_append hr hb]

/-- The two outcomes of an append: an error that leaves the store as it was, or a new
last entry whose id lies after `"0"` and after every id in the store. -/
theorem MemStore.XAdd_spec (c : StoreChoice) (args : XAddArgs) (st : MemStore) :
    (∃ e, MemStore.XAdd c args st = (.error e, st)) ∨
    (∃ id, MemStore.XAdd c args st =
        (.ok id, { st with entries := st.entries ++ [⟨id, args.Values⟩] }) ∧
      st.key "0" < st.key id ∧ ∀ e ∈ st.entries, st.key e.ID < st.key id) := by
  cases c with
  | fail e => exact Or.inl ⟨e, rfl⟩
  | assign id =>
    by_cases hc : args.Stream = streamName ∧ st.key "0" < st.key id ∧
        st.entries.all (fun e => decide (st.key e.ID < st.key id)) = true
    · refine Or.inr ⟨id, ?_, hc.2.1, ?_⟩
      · simp only [MemStore.XAdd, hc, and_self, if_true]
      · intro e he
        have := List.all_eq_true.mp hc.2.2 e he
        simpa using this
    · refine Or.inl ⟨.leaf
        "ERR The ID specified in XADD is equal or smaller than the target stream top item", ?_⟩
      simp only [MemStore.XAdd, hc, if_false]

/-- What a successful `Send` does to the in-memory store. -/
theorem Send_ret {c : StoreChoice} {req : SendRequest} {st st1 : MemStore} {v : SendResponse}
    (h : Send (memClient c) req st = (.ret v, st1)) :
    ∃ id, st.key "0" < st.key id ∧
      st1 = { st with entries := st.entries ++ [⟨id, sendValues req⟩] } := by
  rcases MemStore.XAdd_spec c ⟨streamName, sendValues req⟩ st with ⟨e, he⟩ | ⟨id, hid, hk, -⟩
  · simp [Send, memClient, he] at h
  · simp only [Send, memClient, hid, Prod.mk.injEq] at h
    exact ⟨id, hk, h.2.symm⟩

theorem sendAll_entries :
    ∀ (calls : List (StoreChoice × SendRequest)) {st0 st : MemStore} {msgs0 : List Message},
      (∀ e ∈ st0.entries, st0.key "0" < st0.key e.ID) →
      decodeAll st0.entries = some msgs0 → sendAll st0 calls = some st →
      st.key = st0.key ∧ (∀ e ∈ st.entries, st.key "0" < st.key e.ID) ∧
        decodeAll st.entries =
          some (msgs0 ++ calls.map (fun p => (⟨p.2.Name, p.2.Message⟩ : Message))) ∧
        st.entries.length = st0.entries.length + calls.length
  | [], st0, st, msgs0, hk, hd, h => by
    simp only [sendAll, Option.some.injEq] at h
    subst h
    exact ⟨rfl, hk, by simpa using hd, rfl⟩
  | (c, req) :: rest, st0, st, msgs0, hk, hd, h => by
    simp only [sendAll] at h
    split at h
    · rename_i v st1 heq
      obtain ⟨id, hid, rfl⟩ := Send_ret heq
      have hk1 : ∀ e ∈ st0.entries ++ [(⟨id, sendValues req⟩ : XMessage)],
          st0.key "0" < st0.key e.ID := by
        intro e he
        rcases List.mem_append.mp he with he | he
        · exact hk e he
        · rw [List.mem_singleton.mp he]
          exact hid
      have hd1 : decodeAll (st0.entries ++ [(⟨id, sendValues req⟩ : XMessage)]) =
          some (msgs0 ++ [⟨req.Name, req.Message⟩]) :=
        decodeAll_append hd (by simp [decodeAll, decodeMessage_sendValues])
      obtain ⟨h1, h2, h3, h4⟩ := @sendAll_entries rest
        { st0 with entries := st0.entries ++ [⟨id, sendValues req⟩] } st _ hk1 hd1 h
      refine ⟨h1, h2, ?_, ?_⟩
      · rw [h3]
        simp
      · rw [h4]
        simp
        omega
    · simp at h

/-- The read of `Receive` on a store whose entries all lie after the cursor `"0"`. -/
theorem Receive_of_entries {c : StoreChoice} {st : MemStore} {msgs : List Message}
    (hk : ∀ e ∈ st.entries, st.key "0" < st.key e.ID) (hne : st.entries ≠ [])
    (hd : decodeAll st.entries = some msgs) :
    Receive (memClient c) st = .ret ⟨msgs⟩ := by
  have hfilter : st.readAfter "0" = st.entries := by
    simp only [MemStore.readAfter]
    exact List.filter_eq_self.mpr (fun e he => by simpa using hk e he)
  cases hent : st.entries with
  | nil => exact absurd hent hne
  | cons e es =>
    simp only [Receive, memClient, MemStore.XRead, if_true, hfilter, hent]
    rw [← hent, hd]

/-- C7, the code at the failing input `N = 0`: on the store that starts empty, whatever
its id order and its way of reporting a read that finds nothing, after no `Send` at all
the read of `Receive` (`BLOCK 0`) gets no answer and `Receive` does not return, where the
claim has it return the empty list of messages. -/
theorem Receive_after_no_Send_waits (key : String → Nat) (nilOnEmpty : Bool)
    (c : StoreChoice) :
    sendAll ⟨key, nilOnEmpty, []⟩ [] = some ⟨key, nilOnEmpty, []⟩ ∧
    Receive (memClient c) ⟨key, nilOnEmpty, []⟩ = .waits ∧
    Receive (memClient c) ⟨key, nilOnEmpty, []⟩ ≠
      .ret ⟨([] : List (StoreChoice × SendRequest)).map
        (fun p => (⟨p.2.Name, p.2.Message⟩ : Message))⟩ := by
  have h : Receive (memClient c) ⟨key, nilOnEmpty, []⟩ = .waits := rfl
  refine ⟨rfl, h, ?_⟩
  rw [h]
  intro hc
  cases hc

/-- The part of C7 the code meets: on an in-memory store that starts empty (whatever its
id order and its way of reporting an empty read), for every `N ≥ 1` and every sequence of
`N` calls of `Send` that all succeed, `Receive` returns exactly the `N` messages, with
the same `Name` and `Message`, in the order of the calls. -/
theorem Receive_after_Sends (key : String → Nat) (nilOnEmpty : Bool)
    (calls : List (StoreChoice × SendRequest)) (st : MemStore) (c : StoreChoice)
    (hne : calls ≠ []) (h : sendAll ⟨key, nilOnEmpty, []⟩ calls = some st) :
    Receive (memClient c) st =
      .ret ⟨calls.map (fun p => (⟨p.2.Name, p.2.Message⟩ : Message))⟩ := by
  obtain ⟨-, h2, h3, h4⟩ := @sendAll_entries calls ⟨key, nilOnEmpty, []⟩ st []
    (by intro e he; cases he) rfl h
  have hne1 : st.entries ≠ [] := by
    intro h0
    rw [h0] at h4
    simp at h4
    exact hne (List.length_eq_zero.mp h4.symm)
  simpa using Receive_of_entries (c := c) h2 hne1 h3

/-- The scenario `Send(alice, hi)`, `Send(bob, yo)`, then `Receive`. -/
theorem Receive_after_Sends_witness :
    sendAll ⟨redisIDKey, true, []⟩
        [(.assign "1-0", ⟨"alice", "hi"⟩), (.assign "2-0", ⟨"bob", "yo"⟩)] =
      some ⟨redisIDKey, true, [entryAlice, entryBob]⟩ ∧
    Receive (memClient (.fail redisNil)) ⟨redisIDKey, true, [entryAlice, entryBob]⟩ =
      .ret ⟨[(.assign "1-0", (⟨"alice", "hi"⟩ : SendRequest)),
              (StoreChoice.assign "2-0", ⟨"bob", "yo"⟩)].map
        (fun p => (⟨p.2.Name, p.2.Message⟩ : Message))⟩ :=
  ⟨rfl, Receive_after_Sends redisIDKey true
    [(.assign "1-0", ⟨"alice", "hi"⟩), (.assign "2-0", ⟨"bob", "yo"⟩)] _
    (.fail redisNil) (by simp) rfl⟩

/-! ## One call against the log store -/

theorem readAfter_append (st : MemStore) (x : XMessage) (c : String) :
    ({ st with entries := st.entries ++ [x] } : MemStore).readAfter c =
      st.readAfter c ++ if st.key c < st.key x.ID then [x] else [] := by
  simp only [MemStore.readAfter, List.filter_append]
  by_cases h : st.key c < st.key x.ID <;> simp [List.filter, h]

theorem Send_snd (c : StoreChoice) (req : SendRequest) (st : MemStore) :
    (Send (memClient c) req st).2 = (MemStore.XAdd c ⟨streamName, sendValues req⟩ st).2 := by
  rcases MemStore.XAdd_spec c ⟨streamName, sendValues req⟩ st with ⟨e, he⟩ | ⟨id, hid, -, -⟩
  · simp [Send, memClient, he]
  · simp [Send, memClient, hid]

/-- An append keeps the invariant. -/
theorem Sys.Inv.append {st0 : MemStore} {y : Sys} (hy : Sys.Inv st0 y) (c : StoreChoice)
    (a : XAddArgs) : Sys.Inv st0 { y with store := (y.store.XAdd c a).2 } := by
  rcases MemStore.XAdd_spec c a y.store with ⟨e, he⟩ | ⟨id, hid, hz, hall⟩
  · rw [he]
    exact hy
  · rw [hid]
    have hra := readAfter_append y.store ⟨id, a.Values⟩
    have hzero : ({ y.store with entries := y.store.entries ++ [⟨id, a.Values⟩] }
        : MemStore).readAfter "0" = y.store.readAfter "0" ++ [⟨id, a.Values⟩] := by
      rw [hra, if_pos hz]
    refine ⟨hy.key_eq, ?_, ?_, ?_, ?_, ?_, hy.starting, hy.args, hy.fromZero, hy.decoded,
      hy.firstPush⟩
    · show List.Pairwise _ (y.store.entries ++ [⟨id, a.Values⟩])
      rw [List.pairwise_append]
      refine ⟨hy.sorted, List.pairwise_singleton _ _, ?_⟩
      intro x hx b hb
      rw [List.mem_singleton.mp hb]
      exact hall x hx
    · intro e he
      exact List.mem_append_left _ (hy.grows e he)
    · obtain ⟨rest, hrest⟩ := hy.part
      refine ⟨rest ++ [⟨id, a.Values⟩], ?_⟩
      show y.sess.delivered ++ (rest ++ [⟨id, a.Values⟩]) = _
      rw [hzero, ← hrest, List.append_assoc]
    · intro hp
      have hcur : y.store.key y.sess.latestMsgID < y.store.key id := by
        rcases hy.cursor hp with h0 | ⟨e, he, hid2⟩
        · rw [h0]
          exact hz
        · rw [← hid2]
          exact hall e he
      show y.sess.delivered ++ _ = _
      rw [hzero, hra, if_pos hcur, ← hy.upto hp, List.append_assoc]
    · intro hp
      rcases hy.cursor hp with h0 | ⟨e, he, hid2⟩
      · exact Or.inl h0
      · exact Or.inr ⟨e, List.mem_append_left _ he, hid2⟩

/-- A move of the call that touches neither the cursor nor the push history keeps the
invariant. -/
theorem Sys.Inv.move {st0 : MemStore} {y : Sys} (hy : Sys.Inv st0 y) (n : Int) (s1 : Session)
    (hpush : s1.pushes = y.sess.pushes) (hcur : s1.latestMsgID = y.sess.latestMsgID)
    (hph : s1.loc.phase = .Polling → y.sess.loc.phase = .Polling)
    (hst : s1.loc = .starting → y.sess.loc = .starting)
    (hargs : ∀ a, s1.loc = .inXRead a → a = ⟨[streamName, s1.latestMsgID], some 1⟩) :
    Sys.Inv st0 { y with nowStreaming := n, sess := s1 } := by
  have hdel : s1.delivered = y.sess.delivered := by simp only [Session.delivered, hpush]
  refine ⟨hy.key_eq, hy.sorted, hy.grows, ?_, ?_, ?_, ?_, hargs, ?_, ?_, ?_⟩
  · show ∃ rest, s1.delivered ++ rest = _
    rw [hdel]
    exact hy.part
  · intro hp
    show s1.delivered ++ y.store.readAfter s1.latestMsgID = _
    rw [hdel, hcur]
    exact hy.upto (hph hp)
  · intro hp
    show s1.latestMsgID = "0" ∨ ∃ e ∈ y.store.entries, e.ID = s1.latestMsgID
    rw [hcur]
    exact hy.cursor (hph hp)
  · intro h
    show s1.pushes = []
    rw [hpush]
    exact hy.starting (hst h)
  · intro h hp
    show s1.latestMsgID = "0"
    rw [hcur]
    exact hy.fromZero (hpush ▸ h) (hph hp)
  · show ∀ p ∈ s1.pushes, _
    rw [hpush]
    exact hy.decoded
  · show ∀ p, s1.pushes.head? = some p → _
    rw [hpush]
    exact hy.firstPush

/-- In an ordered log nothing lies after the last entry of a read. -/
theorem readAfter_last {st : MemStore} (hs : st.Sorted) {c : String} {m : XMessage}
    (h : (st.readAfter c).getLast? = some m) :
    st.readAfter m.ID = [] ∧ m ∈ st.entries := by
  obtain ⟨ys, hys⟩ := List.getLast?_eq_some_iff.mp h
  have hsorted : (st.readAfter c).Pairwise (fun a b => st.key a.ID < st.key b.ID) :=
    List.Pairwise.filter _ hs
  rw [hys, List.pairwise_append] at hsorted
  have hm : m ∈ st.readAfter c := List.mem_of_getLast?_eq_some h
  have hm2 := List.mem_filter.mp hm
  refine ⟨?_, hm2.1⟩
  simp only [MemStore.readAfter, List.filter_eq_nil_iff, decide_eq_true_eq]
  intro x hx hlt
  have hcm : st.key c < st.key m.ID := by simpa using hm2.2
  have hxin : x ∈ st.readAfter c :=
    List.mem_filter.mpr ⟨hx, by simpa using Nat.lt_trans hcm hlt⟩
  rw [hys] at hxin
  rcases List.mem_append.mp hxin with hx1 | hx1
  · exact absurd (hsorted.2.2 x hx1 m (List.mem_singleton.mpr rfl)) (Nat.lt_asymm hlt)
  · rw [List.mem_singleton.mp hx1] at hlt
    exact Nat.lt_irrefl _ hlt

theorem handleReply_noData (n : Int) (s : Session) (st : MemStore) (k : String) :
    s.handleReply n (st.noData k) = (n, { s with loc := .atSelect }) := by
  have hnil : errorsIs redisNil redisNil = true := by decide
  cases hb : st.nilOnEmpty <;> simp [MemStore.noData, hb, Session.handleReply, hnil]

theorem XRead_cursor (st : MemStore) (c : String) :
    st.XRead ⟨[streamName, c], some 1⟩ =
      some (match st.readAfter c with
        | [] => st.noData streamName
        | e :: es => .ok [⟨streamName, e :: es⟩]) := by
  simp only [MemStore.XRead, if_true]
  cases st.readAfter c with
  | nil => simp
  | cons e es => rfl

theorem delivered_push (s : Session) (id : String) (l : Loc) (p : PushRecord) :
    ({ s with latestMsgID := id, loc := l, pushes := s.pushes ++ [p] } : Session).delivered =
      s.delivered ++ p.src := by
  simp [Session.delivered]

/-- The answer of the store to the pending `XRead` keeps the invariant. -/
theorem Sys.Inv.reply {st0 : MemStore} {y : Sys} (hy : Sys.Inv st0 y) {a : XReadArgs}
    {r : XReadResult} (hl : y.sess.loc = .inXRead a) (hr : y.store.XRead a = some r) :
    Sys.Inv st0 { y with
      nowStreaming := (y.sess.handleReply y.nowStreaming r).1
      sess := (y.sess.handleReply y.nowStreaming r).2 } := by
  have hp : y.sess.loc.phase = .Polling := by rw [hl]; rfl
  rw [hy.args a hl, XRead_cursor, Option.some.injEq] at hr
  subst hr
  cases hra : y.store.readAfter y.sess.latestMsgID with
  | nil =>
    simp only [handleReply_noData]
    exact hy.move _ _ rfl rfl (fun _ => hp) (by intro h; cases h) (by intro a h; cases h)
  | cons e es =>
    cases hdec : decodeAll (e :: es) with
    | none =>
      have hh : y.sess.handleReply y.nowStreaming (.ok [⟨streamName, e :: es⟩]) =
          y.sess.leave y.nowStreaming .panicked := by
        simp [Session.handleReply, hdec]
      simp only [hh, Session.leave]
      exact hy.move _ _ rfl rfl (by intro h; cases h) (by intro h; cases h)
        (by intro a h; cases h)
    | some ms =>
      have hh := handleReply_entries y.nowStreaming y.sess ⟨streamName, e :: es⟩ [] ms
        (by simp) hdec
      simp only [hh]
      obtain ⟨m, hm⟩ : ∃ m, (e :: es).getLast? = some m := by
        cases hg : (e :: es).getLast? with
        | none => simp at hg
        | some m => exact ⟨m, rfl⟩
      have hid : lastID (e :: es) = m.ID := lastID_of_getLast? hm
      obtain ⟨hnil, hmem⟩ := readAfter_last hy.sorted (hra ▸ hm)
      have hdel := delivered_push y.sess (lastID (e :: es)) (.inSend ⟨ms⟩) ⟨e :: es, ⟨ms⟩⟩
      have hfull : y.sess.delivered ++ (e :: es) = y.store.readAfter "0" := by
        rw [← hra]
        exact hy.upto hp
      refine ⟨hy.key_eq, hy.sorted, hy.grows, ⟨[], ?_⟩, ?_, ?_, ?_, ?_, ?_, ?_, ?_⟩
      · show Session.delivered _ ++ [] = _
        rw [hdel, List.append_nil]
        exact hfull
      · intro _
        show Session.delivered _ ++ y.store.readAfter (lastID (e :: es)) = _
        rw [hdel, hid, hnil, List.append_nil]
        exact hfull
      · intro _
        exact Or.inr ⟨m, hmem, hid.symm⟩
      · intro h
        cases h
      · intro a h
        cases h
      · intro h
        simp at h
      · intro p hpm
        rcases List.mem_append.mp hpm with hpm | hpm
        · exact hy.decoded p hpm
        · rw [List.mem_singleton.mp hpm]
          exact hdec
      · intro p hhead x hx hkx
        show x ∈ p.src
        cases hpush : y.sess.pushes with
        | nil =>
          have h0 : y.sess.latestMsgID = "0" := hy.fromZero hpush hp
          have hp2 : p = ⟨e :: es, ⟨ms⟩⟩ := by
            have : (y.sess.pushes ++ [(⟨e :: es, ⟨ms⟩⟩ : PushRecord)]).head? = some p := hhead
            rw [hpush] at this
            simpa using this.symm
          rw [hp2]
          show x ∈ e :: es
          rw [← hra, h0]
          refine List.mem_filter.mpr ⟨hy.grows x hx, ?_⟩
          rw [hy.key_eq]
          simpa using hkx
        | cons q qs =>
          have : (y.sess.pushes ++ [(⟨e :: es, ⟨ms⟩⟩ : PushRecord)]).head? = some p := hhead
          rw [hpush] at this
          exact hy.firstPush p (by rw [hpush]; simpa using this) x hx hkx

/-- A move of the call other than the return of `XRead` keeps the invariant. -/
theorem Sys.Inv.sess {st0 : MemStore} {y : Sys} (hy : Sys.Inv st0 y) {e : Ev} {n1 : Int}
    {s1 : Session} (h : y.sess.step y.nowStreaming e = some (n1, s1))
    (hr : e.isReply = false) : Sys.Inv st0 { y with nowStreaming := n1, sess := s1 } := by
  cases e with
  | reply r => simp [Ev.isReply] at hr
  | cancel =>
    simp only [Session.step, Option.some.injEq, Prod.mk.injEq] at h
    obtain ⟨rfl, rfl⟩ := h
    exact hy.move _ _ rfl rfl id id hy.args
  | tickFire =>
    simp only [Session.step] at h
    split at h
    · simp only [Option.some.injEq, Prod.mk.injEq] at h
      obtain ⟨rfl, rfl⟩ := h
      exact hy.move _ _ rfl rfl id id hy.args
    · simp at h
  | selectDone =>
    cases hl : y.sess.loc <;> simp [Session.step, hl, Session.leave] at h
    obtain ⟨-, rfl, rfl⟩ := h
    exact hy.move _ _ rfl rfl (by intro h; cases h) (by intro h; cases h)
      (by intro a h; cases h)
  | selectTick =>
    cases hl : y.sess.loc <;> simp [Session.step, hl] at h
    obtain ⟨-, rfl, rfl⟩ := h
    refine hy.move _ _ rfl rfl (fun _ => by rw [hl]; rfl) (by intro h; cases h) ?_
    intro a ha
    simp only [Loc.inXRead.injEq] at ha
    exact ha.symm
  | pushed r =>
    cases hl : y.sess.loc <;> cases r <;> simp [Session.step, hl, Session.leave] at h <;>
      obtain ⟨rfl, rfl⟩ := h
    · exact hy.move _ _ rfl rfl (fun _ => by rw [hl]; rfl) (by intro h; cases h)
        (by intro a h; cases h)
    · exact hy.move _ _ rfl rfl (by intro h; cases h) (by intro h; cases h)
        (by intro a h; cases h)
  | start u =>
    cases hl : y.sess.loc <;> cases u <;> simp [Session.step, hl] at h <;>
      obtain ⟨rfl, rfl⟩ := h
    · have hpush : y.sess.pushes = [] := hy.starting hl
      refine ⟨hy.key_eq, hy.sorted, hy.grows, ⟨y.store.readAfter "0", ?_⟩, ?_, ?_, ?_, ?_, ?_,
        ?_, ?_⟩
      · simp [Session.delivered, hpush]
      · intro _
        simp [Session.delivered, hpush]
      · intro _
        exact Or.inl rfl
      · intro h
        cases h
      · intro a h
        cases h
      · intro _ _
        rfl
      · exact hy.decoded
      · exact hy.firstPush
    · exact hy.move _ _ rfl rfl (by intro h; cases h) (by intro h; cases h)
        (by intro a h; cases h)

theorem Sys.step_inv {st0 : MemStore} {y y1 : Sys} {e : SysEv} (hy : Sys.Inv st0 y)
    (h : y.step e = some y1) : Sys.Inv st0 y1 := by
  cases e with
  | send c req =>
    simp only [Sys.step, Option.some.injEq] at h
    subst h
    rw [Send_snd]
    exact hy.append c _
  | xadd c a =>
    simp only [Sys.step, Option.some.injEq] at h
    subst h
    exact hy.append c a
  | storeReply =>
    cases hl : y.sess.loc with
    | inXRead a =>
      cases hx : y.store.XRead a with
      | none => simp [Sys.step, hl, hx] at h
      | some r =>
        simp [Sys.step, hx, Session.step, hl] at h
        subst h
        exact hy.reply hl hx
    | _ => simp [Sys.step, hl] at h
  | sess ev =>
    simp only [Sys.step] at h
    split at h
    · simp at h
    · rename_i hr
      cases hst : y.sess.step y.nowStreaming ev with
      | none => simp [hst] at h
      | some p =>
        obtain ⟨n1, s1⟩ := p
        simp only [hst, Option.some.injEq] at h
        subst h
        exact hy.sess hst (by simpa using hr)

theorem Sys.run_inv {st0 : MemStore} :
    ∀ (evs : List SysEv) {y y1 : Sys}, Sys.Inv st0 y → Sys.run y evs = some y1 →
      Sys.Inv st0 y1
  | [], y, y1, hy, h => by
    simp only [Sys.run, Option.some.injEq] at h
    subst h
    exact hy
  | e :: evs, y, y1, hy, h => by
    simp only [Sys.run] at h
    cases hst : y.step e with
    | none => simp [hst] at h
    | some y2 =>
      simp only [hst] at h
      exact Sys.run_inv evs (Sys.step_inv hy hst) h

theorem Sys.init_inv {st0 : MemStore} (hs : st0.Sorted) : Sys.Inv st0 (Sys.init st0) :=
  ⟨rfl, hs, fun _ h => h, ⟨st0.readAfter "0", rfl⟩, (by intro h; cases h),
    (by intro h; cases h), fun _ => rfl, (by intro a h; cases h), (by intro _ h; cases h),
    (by intro p h; cases h), (by intro p h; cases h)⟩

/-- C3, as stated, fails: after `Send(alice, hi)` and `Send(bob, yo)`, a subscription
that starts and then sees `Send(carol, sup)` pushes as its first batch alice, bob and
carol: the two entries written before it started are replayed. -/
theorem first_batch_replays_history :
    (Sys.run (Sys.init MemStore.empty) carolScript).map
        (fun y => y.sess.pushes.map (fun p => p.resp)) =
      some [⟨[⟨"alice", "hi"⟩, ⟨"bob", "yo"⟩, ⟨"carol", "sup"⟩]⟩] := by
  decide

/-- C3, amended: against an ordered log store, the first batch a subscription pushes is
decoded from a read that starts at the cursor `"0"`: it holds every entry that was in
the log when `ReceiveStream` was entered and whose id lies after `"0"`. -/
theorem first_batch_holds_log_at_start (st0 : MemStore) (evs : List SysEv) (y : Sys)
    (p : PushRecord) (hs : st0.Sorted) (h : Sys.run (Sys.init st0) evs = some y)
    (hp : y.sess.pushes.head? = some p) :
    decodeAll p.src = some p.resp.Messages ∧
      ∀ e ∈ st0.entries, st0.key "0" < st0.key e.ID → e ∈ p.src := by
  have hy := Sys.run_inv evs (Sys.init_inv hs) h
  obtain ⟨ys, hys⟩ := List.head?_eq_some_iff.mp hp
  exact ⟨hy.decoded p (by rw [hys]; exact List.mem_cons_self _ _), hy.firstPush p hp⟩

/-- Witness of the amended C3: the subscription entered after alice and bob pushes
alice, bob and carol as its first batch. -/
theorem first_batch_holds_log_at_start_witness :
    (storeAliceBob.Sorted ∧ Sys.run (Sys.init storeAliceBob) lateScript = some lateEnd ∧
      lateEnd.sess.pushes.head? =
        some ⟨[entryAlice, entryBob, entryCarol],
          ⟨[⟨"alice", "hi"⟩, ⟨"bob", "yo"⟩, ⟨"carol", "sup"⟩]⟩⟩) ∧
    (decodeAll [entryAlice, entryBob, entryCarol] =
        some [⟨"alice", "hi"⟩, ⟨"bob", "yo"⟩, ⟨"carol", "sup"⟩] ∧
      ∀ e ∈ storeAliceBob.entries, storeAliceBob.key "0" < storeAliceBob.key e.ID →
        e ∈ [entryAlice, entryBob, entryCarol]) :=
  have hs : storeAliceBob.Sorted := by
    unfold MemStore.Sorted storeAliceBob
    decide
  ⟨⟨hs, rfl, rfl⟩,
    first_batch_holds_log_at_start storeAliceBob lateScript lateEnd
      ⟨[entryAlice, entryBob, entryCarol],
        ⟨[⟨"alice", "hi"⟩, ⟨"bob", "yo"⟩, ⟨"carol", "sup"⟩]⟩⟩ hs rfl rfl⟩

/-- C4: against a log store whose ids strictly increase in append order and whose reads
return the entries after the cursor in id order, in every run of `ReceiveStream` the
entries handed to `stream.Send` so far, batch after batch, are in strictly increasing id
order, contain no entry twice, and contain every entry of the log whose id lies between
the first and the last delivered id; each batch is the decoding of its entries. -/
theorem delivered_in_id_order (st0 : MemStore) (evs : List SysEv) (y : Sys)
    (hs : st0.Sorted) (h : Sys.run (Sys.init st0) evs = some y) :
    y.sess.delivered.Pairwise (fun a b => y.store.key a.ID < y.store.key b.ID) ∧
    y.sess.delivered.Nodup ∧
    (∀ first last, y.sess.delivered.head? = some first →
      y.sess.delivered.getLast? = some last →
      ∀ e ∈ y.store.entries, y.store.key first.ID ≤ y.store.key e.ID →
        y.store.key e.ID ≤ y.store.key last.ID → e ∈ y.sess.delivered) ∧
    (∀ p ∈ y.sess.pushes, decodeAll p.src = some p.resp.Messages) := by
  have hy := Sys.run_inv evs (Sys.init_inv hs) h
  obtain ⟨rest, hrest⟩ := hy.part
  have hsorted : (y.store.readAfter "0").Pairwise
      (fun a b => y.store.key a.ID < y.store.key b.ID) := List.Pairwise.filter _ hy.sorted
  rw [← hrest, List.pairwise_append] at hsorted
  obtain ⟨hdel, -, hcross⟩ := hsorted
  refine ⟨hdel, ?_, ?_, hy.decoded⟩
  · refine hdel.imp ?_
    intro a b hab hEq
    rw [hEq] at hab
    exact Nat.lt_irrefl _ hab
  · intro first last hfirst hlast e he h1 h2
    obtain ⟨ys, hys⟩ := List.head?_eq_some_iff.mp hfirst
    have hfmem : first ∈ y.sess.delivered := by
      rw [hys]
      exact List.mem_cons_self _ _
    have hlmem : last ∈ y.sess.delivered := List.mem_of_getLast?_eq_some hlast
    have hfR : first ∈ y.store.readAfter "0" := by
      rw [← hrest]
      exact List.mem_append_left _ hfmem
    have hz : y.store.key "0" < y.store.key first.ID := by
      simpa using (List.mem_filter.mp hfR).2
    have heR : e ∈ y.store.readAfter "0" :=
      List.mem_filter.mpr ⟨he, by simpa using Nat.lt_of_lt_of_le hz h1⟩
    rw [← hrest] at heR
    rcases List.mem_append.mp heR with hin | hin
    · exact hin
    · exact absurd (hcross last hlmem e hin) (Nat.not_lt.mpr h2)

/-- Witness of C4: alice is delivered in a first batch, bob and carol in a second one. -/
theorem delivered_in_id_order_witness :
    (MemStore.empty.Sorted ∧ Sys.run (Sys.init MemStore.empty) twoTickScript = some twoTickEnd) ∧
    (twoTickEnd.sess.delivered.Pairwise
        (fun a b => twoTickEnd.store.key a.ID < twoTickEnd.store.key b.ID) ∧
    twoTickEnd.sess.delivered.Nodup ∧
    (∀ first last, twoTickEnd.sess.delivered.head? = some first →
      twoTickEnd.sess.delivered.getLast? = some last →
      ∀ e ∈ twoTickEnd.store.entries, twoTickEnd.store.key first.ID ≤ twoTickEnd.store.key e.ID →
        twoTickEnd.store.key e.ID ≤ twoTickEnd.store.key last.ID →
        e ∈ twoTickEnd.sess.delivered) ∧
    (∀ p ∈ twoTickEnd.sess.pushes, decodeAll p.src = some p.resp.Messages)) :=
  ⟨⟨List.Pairwise.nil, rfl⟩,
    delivered_in_id_order MemStore.empty twoTickScript twoTickEnd List.Pairwise.nil rfl⟩

end ChatExamination
